import Mathlib

/-!
Verification development for the `sx` local full-text search engine
(`src/sx_search/engine.py`): a shallow embedding of its tokenizer, its
on-disk store (SQLite tables `meta`/`docs`/`terms`/`postings` modelled as
Lean lists), its BM25 searcher and its incremental indexer, together with
theorems settling the specification claims.

Modelling conventions:
* Python floats are idealised as `ℚ`; `math.log` is an explicit function
  parameter `log : ℚ → ℚ` (the natural logarithm is transcendental, and
  every scoring statement below holds for the actual `ln` because it is
  proved for an arbitrary `log`, or — for ranking statements — for any
  `log` positive on arguments `> 1`, which `ln` is).
* Python's Unicode-aware `str.islower`/`isupper`/`isalpha`/`isdigit`/
  `lower` are modelled on ASCII (all inputs appearing in the claims are
  ASCII); Lean's `Char.isLower` etc. agree with Python on ASCII.
* SQLite tables are association lists kept in row order; `SELECT ...
  fetchone` is `List.find?`, `INSERT OR REPLACE` deletes the conflicting
  row and appends, and the `ON CONFLICT(path) DO UPDATE` upsert updates
  rows with a matching path in place.
-/

/-- ASCII model of the character class of `_WORD_RE = [A-Za-z0-9_]{2,}`:
a "word" character is an ASCII letter, an ASCII digit, or `_`. -/
def isWordCh (c : Char) : Bool :=
  c.isAlpha || c.isDigit || c = '_'

/-- Scanner for `_WORD_RE.finditer(text)`: collect the maximal runs of
word characters.  `cur` holds the current (reversed) run. -/
def wordRunsGo (cur : List Char) : List Char → List (List Char)
  | [] => if cur = [] then [] else [cur.reverse]
  | c :: rest =>
    if isWordCh c then wordRunsGo (c :: cur) rest
    else if cur = [] then wordRunsGo [] rest
    else cur.reverse :: wordRunsGo [] rest

/-- The raw tokens of `_WORD_RE.finditer`: maximal word-character runs of
length ≥ 2 (the `{2,}` in the regex). -/
def wordRuns (text : List Char) : List (List Char) :=
  (wordRunsGo [] text).filter (fun r => 2 ≤ r.length)

/-- The camel/digit boundary test of `_split_identifier`'s inner loop:
split between `c0` and `c1` when lower→upper, letter→digit or
digit→letter. -/
def camelBoundary (c0 c1 : Char) : Bool :=
  (c0.isLower && c1.isUpper) || (c0.isAlpha && c1.isDigit) || (c0.isDigit && c1.isAlpha)

/-- The inner loop of `_split_identifier` over one `_`-free part: walk the
characters keeping the current fragment (reversed) in `cur`, cutting at
each `camelBoundary`. -/
def camelSplitGo (prev : Char) (cur : List Char) : List Char → List (List Char)
  | [] => [cur.reverse]
  | c :: rest =>
    if camelBoundary prev c then cur.reverse :: camelSplitGo c [c] rest
    else camelSplitGo c (c :: cur) rest

/-- Camel-case split of one nonempty `_`-free part (`p[start:i]` pieces
plus the trailing `p[start:]`). -/
def camelSplit : List Char → List (List Char)
  | [] => [[]]
  | c :: rest => camelSplitGo c [c] rest

/-- Split a list on a separator character, Python `str.split(sep)` style:
`"".split` gives `[""]`, and empty pieces between separators are kept. -/
def splitOnCharL (sep : Char) : List Char → List (List Char)
  | [] => [[]]
  | c :: rest =>
    if c = sep then [] :: splitOnCharL sep rest
    else
      match splitOnCharL sep rest with
      | [] => [[c]]
      | h :: t => (c :: h) :: t

/-- `_split_identifier(token)`: split on `_` (dropping empty parts), split
each part at camel/digit boundaries, and keep only fragments of length
≥ 2. -/
def split_identifier (token : List Char) : List (List Char) :=
  (((splitOnCharL '_' token).filter (fun p => p ≠ [])).flatMap camelSplit).filter
    (fun x => 2 ≤ x.length)

/-- `lst.endswith suf` on character lists (Python `str.endswith`). -/
def endsWithL (t suf : List Char) : Bool :=
  suf.reverse.isPrefixOf t.reverse

/-- Strip a known suffix: `t[:-len(suf)]`. -/
def dropSuffixL (t suf : List Char) : List Char :=
  t.take (t.length - suf.length)

/-- The ordered suffix list of `simple_stem`'s second loop, kept verbatim
from the source (including the duplicated `"edly"`, which is dead). -/
def stemSuffixes : List (List Char) :=
  [['i','n','g'], ['e','r','s'], ['e','r'], ['e','d','l','y'], ['e','d','l','y'],
   ['e','d'], ['l','y'], ['e','s'], ['s']]

/-- The `break`ing suffix loop of `simple_stem`: strip the first suffix
`suf` with `len(t) > len(suf) + 2` and `t.endswith(suf)`. -/
def stemLoop (t : List Char) : List (List Char) → List Char
  | [] => t
  | suf :: rest =>
    if t.length > suf.length + 2 && endsWithL t suf then dropSuffixL t suf
    else stemLoop t rest

/-- `simple_stem(term)`: identity on terms of length ≤ 3; otherwise strip
a trailing `'s`, then the first matching suffix from `stemSuffixes`. -/
def simple_stem (term : List Char) : List Char :=
  if term.length ≤ 3 then term
  else
    let t := if endsWithL term ['\'', 's'] then dropSuffixL term ['\'', 's'] else term
    stemLoop t stemSuffixes

/-- `tokenize(text, stem, stopwords)` on character lists: for each raw
regex token, split identifiers, lowercase, optionally stem, and drop
fragments of length < 2 or in the stopword set. -/
def tokenizeL (text : List Char) (stem : Bool) (sw : List String) : List String :=
  (wordRuns text).flatMap fun tok =>
    (split_identifier tok).filterMap fun part =>
      let t := part.map Char.toLower
      let t := if stem then simple_stem t else t
      if t.length < 2 ∨ String.mk t ∈ sw then none else some (String.mk t)

/-- `tokenize` on strings (the exported engine entry point). -/
def tokenize (text : String) (stem : Bool) (sw : List String) : List String :=
  tokenizeL text.toList stem sw

/-- `DEFAULT_STOPWORDS`, verbatim from the source. -/
def DEFAULT_STOPWORDS : List String :=
  ["a", "an", "and", "are", "as", "at", "be", "but", "by", "for", "from",
   "has", "have", "he", "her", "his", "i", "if", "in", "into", "is", "it",
   "its", "me", "not", "of", "on", "or", "our", "s", "she", "so", "t",
   "that", "the", "their", "them", "then", "there", "these", "they",
   "this", "to", "was", "we", "were", "what", "when", "where", "which",
   "who", "will", "with", "you", "your"]

/-! ## The on-disk store (schema of `init_db`) -/

/-- One row of the `docs` table: `docid, path, len, mtime, size, sha1,
path_tokens`.  The DB stores `path_tokens` space-joined; `search` splits
it back with `str.split()`.  Tokens are nonempty and space-free (they are
word-character runs), so the round trip is the identity and the model
keeps the token list directly. -/
structure Doc where
  docid : Nat
  path : String
  len : Int
  mtime : Int
  size : Int
  sha1 : String
  pathTokens : List String
deriving DecidableEq, Repr

/-- The `meta` table, restricted to the keys the engine reads
(`root`, `version`, `total_docs`, `avgdl`).  `none` models an absent
key (`_get_meta` then returns the caller's default). -/
structure MetaTable where
  root : Option String
  version : Option String
  totalDocs : Option Int
  avgdl : Option ℚ
deriving DecidableEq, Repr

/-- A whole store: the four logical tables.  `postings` rows are
`(term, docid, tf)`; `terms` rows are `(term, df)`. -/
structure Store where
  docs : List Doc
  postings : List (String × Nat × Int)
  terms : List (String × Int)
  meta : MetaTable
deriving DecidableEq, Repr

/-- A store as `_connect` + `init_db` produce it at a path where no file
existed: all four tables empty. -/
def emptyStore : Store :=
  { docs := [], postings := [], terms := [], meta := ⟨none, none, none, none⟩ }

/-! ## Searcher -/

/-- `SearchHit` (the dataclass), restricted to the fields `search`
fills (`line`/`snippet` are filled by the CLI, not the engine). -/
structure SearchHit where
  score : ℚ
  path : String
  docid : Nat
deriving DecidableEq, Repr

/-- The keyword parameters of `search`. -/
structure SearchParams where
  k : Nat
  k1 : ℚ
  b : ℚ
  stem : Bool
  stopwords : Bool
  pathBoost : ℚ
  pathFilter : Option String
  extsFilter : Option (List String)
deriving Repr

/-- The defaults of `search`'s signature: `k=10, k1=1.2, b=0.75,
stem=False, stopwords=True, path_boost=1.5`, no filters. -/
def defaultParams : SearchParams :=
  { k := 10, k1 := 6/5, b := 3/4, stem := false, stopwords := true,
    pathBoost := 3/2, pathFilter := none, extsFilter := none }

/-- `bm25_idf(n_docs, df) = log(((n_docs - df + 0.5) / (df + 0.5)) + 1.0)`,
with `math.log` abstracted into the parameter `log`. -/
def bm25_idf (log : ℚ → ℚ) (nDocs df : Int) : ℚ :=
  log ((((nDocs : ℚ) - (df : ℚ) + 1/2) / ((df : ℚ) + 1/2)) + 1)

/-- `_get_meta(con, "root", ".")` as used by `search`. -/
def metaRoot (S : Store) : String := S.meta.root.getD "."

/-- `int(_get_meta(con, "total_docs", "0") or "0")`. -/
def metaTotalDocs (S : Store) : Int := S.meta.totalDocs.getD 0

/-- `float(_get_meta(con, "avgdl", "0") or "0") or 1.0`: a missing key
reads as `0`, and a zero value falls back to `1.0` (Python `or` on a
falsy float). -/
def metaAvgdl (S : Store) : ℚ :=
  let v := S.meta.avgdl.getD 0
  if v = 0 then 1 else v

/-- Python `str.strip()` (ASCII whitespace). -/
def isSpaceCh (c : Char) : Bool :=
  c = ' ' || c = '\t' || c = '\n' || c = '\x0d' || c = '\x0b' || c = '\x0c'

/-- `strip` on character lists: drop whitespace from both ends. -/
def stripL (l : List Char) : List Char :=
  ((l.dropWhile isSpaceCh).reverse.dropWhile isSpaceCh).reverse

/-- `s.strip()`. -/
def stripStr (s : String) : String := String.mk (stripL s.toList)

/-- `s.lower()` (ASCII model). -/
def lowerStr (s : String) : String := String.mk (s.toList.map Char.toLower)

/-- `query.split("|")`. -/
def splitOnPipe (s : String) : List String :=
  (splitOnCharL '|' s.toList).map String.mk

/-- The `seen`/`deduped` loop at the end of the alternation branch:
keep the first occurrence of each term. -/
def dedupKeepFirst (l : List String) : List String :=
  l.foldl (fun acc t => if t ∈ acc then acc else acc ++ [t]) []

/-- Query parsing of `search`: the alternation branch when the query
contains `|` (tokenize each trimmed alternative, then append every term
of the `terms` table that fully matches the literal regex
`alt1|alt2|...` — i.e. equals a lowered alternative; an empty
alternative list compiles to the empty pattern, which fullmatches only
`""` — and dedupe), else plain tokenization. -/
def parseQTerms (S : Store) (query : String) (stem : Bool) (sw : List String) :
    List String :=
  if '|' ∈ query.toList then
    let alternatives := ((splitOnPipe query).map stripStr).filter (fun a => a ≠ "")
    let base := alternatives.foldl (fun acc a => acc ++ tokenize a stem sw) []
    let lowered := alternatives.map lowerStr
    let rxFullmatch : String → Bool := fun t =>
      if alternatives.isEmpty then t = "" else t ∈ lowered
    let withRx := S.terms.foldl
      (fun acc pr => if rxFullmatch pr.1 ∧ pr.1 ∉ acc then acc ++ [pr.1] else acc)
      base
    dedupKeepFirst withRx
  else
    tokenize query stem sw

/-- SQL `LIKE` matching (SQLite semantics: `%` matches any sequence,
`_` any single character, ASCII case-insensitive), used for the
`d.path LIKE '%' || path_filter || '%'` clause. -/
def likeMatch : List Char → List Char → Bool
  | [], [] => true
  | [], _ :: _ => false
  | '%' :: ps, t =>
    likeMatch ps t ||
      (match t with
       | [] => false
       | _ :: ts => likeMatch ('%' :: ps) ts)
  | '_' :: ps, t =>
    (match t with
     | [] => false
     | _ :: ts => likeMatch ps ts)
  | c :: ps, t =>
    (match t with
     | [] => false
     | d :: ts => (c.toLower = d.toLower) && likeMatch ps ts)
  termination_by ps t => (ps.length, t.length)

/-- The path filter: `if path_filter:` (an empty string is falsy and
disables the clause), else `d.path LIKE %path_filter%`. -/
def pathFilterOk (p : SearchParams) (path : String) : Bool :=
  match p.pathFilter with
  | none => true
  | some f => if f = "" then true else likeMatch ('%' :: f.toList ++ ['%']) path.toList

/-- `Path(p).name`: the component after the last `/`. -/
def pathNameOf (path : String) : String :=
  match (splitOnCharL '/' path.toList).reverse with
  | [] => path
  | last :: _ => String.mk last

/-- `Path(p).suffix`: from the last dot of the name, nonempty only when
the dot is neither the first nor the last character of the name. -/
def pathSuffixOf (path : String) : String :=
  let name := (pathNameOf path).toList
  let iOpt := (name.reverse.findIdx? (fun c => c = '.')).map (fun j => name.length - 1 - j)
  match iOpt with
  | none => ""
  | some i => if 0 < i ∧ i < name.length - 1 then String.mk (name.drop i) else ""

/-- The extension filter of `search`'s inner loop: `if exts_filter:`
(an empty set is falsy), else keep the row when the lowered basename or
the lowered suffix is in the set. -/
def extsFilterOk (p : SearchParams) (path : String) : Bool :=
  match p.extsFilter with
  | none => true
  | some exts =>
    if exts = [] then true
    else lowerStr (pathNameOf path) ∈ exts ∨ lowerStr (pathSuffixOf path) ∈ exts

/-- One row of the per-term retrieval query
`SELECT p.docid, p.tf, d.path, d.len, d.path_tokens FROM postings p JOIN
docs d ON d.docid = p.docid WHERE p.term = ? [AND d.path LIKE ?]`. -/
structure Row where
  docid : Nat
  tf : Int
  path : String
  len : Int
  pathTokens : List String
deriving DecidableEq, Repr

/-- `SELECT docid FROM docs`-style lookup by docid (the JOIN partner). -/
def docById (S : Store) (id : Nat) : Option Doc :=
  S.docs.find? (fun d => d.docid = id)

/-- The rows the retrieval query yields for one term, in postings-table
order (the path filter is part of the SQL `WHERE`). -/
def rowsFor (S : Store) (p : SearchParams) (term : String) : List Row :=
  S.postings.filterMap fun pr =>
    if pr.1 = term then
      match docById S pr.2.1 with
      | some d =>
        if pathFilterOk p d.path then
          some ⟨d.docid, pr.2.2, d.path, d.len, d.pathTokens⟩
        else none
      | none => none
    else none

/-- An entry of the `doc_paths`/`doc_lens`/`doc_path_tokens` caches,
keyed by docid. -/
structure CachedDoc where
  docid : Nat
  path : String
  len : Int
  pathTokens : List String
deriving DecidableEq, Repr

/-- The loop state: the `doc_scores` accumulator (a `defaultdict(float)`
in first-touch order) and the per-doc caches. -/
abbrev ScanState := List (Nat × ℚ) × List CachedDoc

/-- `doc_scores[docid] += score` on the insertion-ordered accumulator. -/
def addScore : List (Nat × ℚ) → Nat → ℚ → List (Nat × ℚ)
  | [], d, s => [(d, s)]
  | (d', s') :: rest, d, s =>
    if d' = d then (d', s' + s) :: rest else (d', s') :: addScore rest d s

/-- The body of the row loop of `search`: apply the extension filter,
fill the per-doc caches on first touch, read `dl = doc_lens[docid] or 1`
from the cache, score the row by BM25, boost it when the term is among
the doc's path tokens, and accumulate. -/
def procRow (p : SearchParams) (avgdl idf : ℚ) (term : String)
    (st : ScanState) (r : Row) : ScanState :=
  if extsFilterOk p r.path then
    let info := if st.2.any (fun e => e.docid = r.docid) then st.2
                else st.2 ++ [⟨r.docid, r.path, r.len, r.pathTokens⟩]
    let e := (info.find? (fun e => e.docid = r.docid)).getD
      ⟨r.docid, r.path, r.len, r.pathTokens⟩
    let dl : ℚ := if e.len = 0 then 1 else (e.len : ℚ)
    let denom := (r.tf : ℚ) + p.k1 * (1 - p.b + p.b * (dl / avgdl))
    let score := idf * ((r.tf : ℚ) * (p.k1 + 1)) / denom
    let score := if term ∈ e.pathTokens then score * p.pathBoost else score
    (addScore st.1 r.docid score, info)
  else st

/-- The body of the term loop of `search`: skip terms absent from the
`terms` table, otherwise compute the idf once and fold the row loop. -/
def procTerm (log : ℚ → ℚ) (S : Store) (p : SearchParams) (nDocs : Int)
    (avgdl : ℚ) (st : ScanState) (term : String) : ScanState :=
  match S.terms.find? (fun pr => pr.1 = term) with
  | none => st
  | some pr =>
    let idf := bm25_idf log nDocs pr.2
    (rowsFor S p term).foldl (procRow p avgdl idf term) st

/-- The whole scoring loop of `search` over the parsed query terms. -/
def scanTerms (log : ℚ → ℚ) (S : Store) (p : SearchParams) (nDocs : Int)
    (avgdl : ℚ) (qTerms : List String) : ScanState :=
  qTerms.foldl (procTerm log S p nDocs avgdl) (([], []) : ScanState)

/-- The `doc_scores` accumulator `search` builds for a query (empty when
the store has no docs or the parse is empty does not matter here: this
is the accumulator of the scoring loop itself). -/
def searchScores (log : ℚ → ℚ) (S : Store) (query : String) (p : SearchParams) :
    List (Nat × ℚ) :=
  let sw := if p.stopwords then DEFAULT_STOPWORDS else []
  (scanTerms log S p (metaTotalDocs S) (metaAvgdl S)
    (parseQTerms S query p.stem sw)).1

/-- The per-doc caches built alongside `searchScores`. -/
def searchInfo (log : ℚ → ℚ) (S : Store) (query : String) (p : SearchParams) :
    List CachedDoc :=
  let sw := if p.stopwords then DEFAULT_STOPWORDS else []
  (scanTerms log S p (metaTotalDocs S) (metaAvgdl S)
    (parseQTerms S query p.stem sw)).2

/-- The score `search` accumulates for docid `d` (0 when `d` was never
touched). -/
def valueOf (scores : List (Nat × ℚ)) (d : Nat) : ℚ :=
  ((scores.find? (fun pr => pr.1 = d)).map (fun pr => pr.2)).getD 0

/-- Stable descending insertion: the model of Python's stable
`sorted(doc_scores.items(), key=score, reverse=True)` (an element moves
before the first strictly-smaller score; ties keep insertion order). -/
def insertDesc (x : Nat × ℚ) : List (Nat × ℚ) → List (Nat × ℚ)
  | [] => [x]
  | y :: ys => if x.2 ≥ y.2 then x :: y :: ys else y :: insertDesc x ys

/-- Stable sort by score, descending. -/
def sortByScoreDesc : List (Nat × ℚ) → List (Nat × ℚ)
  | [] => []
  | x :: xs => insertDesc x (sortByScoreDesc xs)

/-- `search(db_path, query, ...) -> (root, hits)`.  A `db_path` with no
store file behaves as `emptyStore` (`_connect` creates the parents and
an empty schema).  Early exits: no docs, empty parsed term list, empty
score table.  Otherwise sort the scores descending (stably), truncate to
`k`, and build hits with `doc_paths.get(docid, "")`. -/
def search (log : ℚ → ℚ) (S : Store) (query : String) (p : SearchParams) :
    String × List SearchHit :=
  let root := metaRoot S
  let totalDocs := metaTotalDocs S
  let avgdl := metaAvgdl S
  if totalDocs ≤ 0 then (root, [])
  else
    let sw := if p.stopwords then DEFAULT_STOPWORDS else []
    let qTerms := parseQTerms S query p.stem sw
    if qTerms = [] then (root, [])
    else
      let st := scanTerms log S p totalDocs avgdl qTerms
      if st.1 = [] then (root, [])
      else
        let top := (sortByScoreDesc st.1).take p.k
        (root,
         top.map fun pr =>
           ⟨pr.2, ((st.2.find? (fun e => e.docid = pr.1)).map (fun e => e.path)).getD "",
            pr.1⟩)

/-- The set of docids `search` touches for a query, before top-`k`
truncation (the key set of `doc_scores`; empty on the early exits). -/
def searchHitDocids (log : ℚ → ℚ) (S : Store) (query : String) (p : SearchParams) :
    List Nat :=
  if metaTotalDocs S ≤ 0 then []
  else
    let sw := if p.stopwords then DEFAULT_STOPWORDS else []
    let qTerms := parseQTerms S query p.stem sw
    if qTerms = [] then []
    else (scanTerms log S p (metaTotalDocs S) (metaAvgdl S) qTerms).1.map
      (fun pr => pr.1)

/-! ## Indexer

The indexer's interaction with the file system is abstracted into run
inputs: the walked relative paths `rels` (output of `iter_files`), the
plan-time `file_sig` results `sig : String → Option (Int × Int)`
(`none` models an `OSError`), the `sha1_file` results
`sha : String → String` (`""` on error, as in the source), and the
worker outcome per dispatched file, `task`.  Path tokens are computed by
the model itself, exactly as `_path_tokens` does (`os.sep` is `/`).
`as_completed` yields results in scheduler order; the model applies them
in submission order, which the source declares irrelevant (each doc's
rows are self-contained). -/

/-- One worker's outcome for `_index_one_file`: an exception
(`failed`), a `None` return (empty / binary / vanished file), or a
populated `_IndexedDoc` giving `(mtime, size)` from the worker's own
`file_sig`, the content hash, and the term-frequency counter. -/
inductive TaskOutcome where
  | failed : TaskOutcome
  | empty : TaskOutcome
  | done (mtime size : Int) (sha1 : String) (tf : List (String × Int)) : TaskOutcome
deriving DecidableEq, Repr

/-- The `stem`/`stopwords` fields of `IndexOptions` (the `exts` and
`workers` fields only shape the walk and the pool, which are abstracted
away). -/
structure IndexOpts where
  stem : Bool
  stopwords : Bool
deriving DecidableEq, Repr

/-- The stats dict `index` returns. -/
structure IndexStats where
  totalDocs : Int
  avgdl : ℚ
  indexed : Nat
  unchanged : Nat
  removed : Nat
  failed : Nat
deriving DecidableEq, Repr

/-- A populated worker result carried to the write phase
(`_IndexedDoc`). -/
structure DocData where
  rel : String
  mtime : Int
  size : Int
  sha1 : String
  tf : List (String × Int)
deriving DecidableEq, Repr

/-- `_path_tokens(rel, ...)`: tokenize the path with separators
rewritten to spaces. -/
def pathTokensOf (opts : IndexOpts) (sw : List String) (rel : String) : List String :=
  tokenize (String.mk (rel.toList.map fun c => if c = '/' then ' ' else c)) opts.stem sw

/-- `SELECT ... FROM docs WHERE path=? ... fetchone()`. -/
def lookupDoc (docs : List Doc) (rel : String) : Option Doc :=
  docs.find? (fun d => d.path = rel)

/-- `to_remove = set(existing.keys()) - set(rels)` (in docs-table
order; removal order does not affect the resulting state). -/
def toRemoveOf (docs : List Doc) (rels : List String) : List String :=
  (docs.map (fun d => d.path)).filter (fun pa => pa ∉ rels)

/-- The incremental planning loop: skip rels whose `file_sig` raises,
count a rel `unchanged` when its stored `(mtime, size)` matches, else
append it to `to_index`.  Non-incremental runs index everything. -/
def planOf (docs : List Doc) (rels : List String)
    (sig : String → Option (Int × Int)) (incremental : Bool) :
    List String × Nat :=
  if incremental then
    rels.foldl
      (fun acc rel =>
        match sig rel with
        | none => acc
        | some (m, s) =>
          match lookupDoc docs rel with
          | some ex =>
            if ex.mtime = m ∧ ex.size = s then (acc.1, acc.2 + 1)
            else (acc.1 ++ [rel], acc.2)
          | none => (acc.1 ++ [rel], acc.2))
      ([], 0)
  else (rels, 0)

/-- Transaction T1: delete each stale doc row; the
`ON DELETE CASCADE` clause removes its postings. -/
def removeDocs (S : Store) (toRemove : List String) : Store :=
  let removedIds := (S.docs.filter (fun d => d.path ∈ toRemove)).map (fun d => d.docid)
  { S with
    docs := S.docs.filter (fun d => d.path ∉ toRemove),
    postings := S.postings.filter (fun pr => pr.2.1 ∉ removedIds) }

/-- Transaction T2: for each changed rel still present in `docs`,
delete its postings. -/
def deleteChangedPostings (S : Store) (toIndex : List String) : Store :=
  let changedIds := toIndex.filterMap (fun rel => (lookupDoc S.docs rel).map (fun d => d.docid))
  { S with postings := S.postings.filter (fun pr => pr.2.1 ∉ changedIds) }

/-- The populated results, in submission order (`rel` is the submitted
task's rel, as `_index_one_file` echoes it back). -/
def resultsOf (toIndex : List String) (task : String → TaskOutcome) : List DocData :=
  toIndex.filterMap fun rel =>
    match task rel with
    | .done m s h tf => some ⟨rel, m, s, h, tf⟩
    | _ => none

/-- How many dispatched tasks returned `None` (`skipped_empty`). -/
def skippedEmptyOf (toIndex : List String) (task : String → TaskOutcome) : Nat :=
  (toIndex.filter (fun rel => task rel = .empty)).length

/-- How many dispatched tasks raised (`failed`). -/
def failedOf (toIndex : List String) (task : String → TaskOutcome) : Nat :=
  (toIndex.filter (fun rel => task rel = .failed)).length

/-- The next docid SQLite assigns on a plain `INTEGER PRIMARY KEY`
insert: one more than the largest rowid in the table. -/
def newDocid (docs : List Doc) : Nat :=
  (docs.map (fun d => d.docid)).foldl max 0 + 1

/-- The `INSERT INTO docs ... ON CONFLICT(path) DO UPDATE` upsert:
refresh `(len, mtime, size, sha1, path_tokens)` of the row with this
path (keeping its docid), or insert a fresh row. -/
def upsertDoc (docs : List Doc) (rel : String) (len mtime size : Int)
    (sha1 : String) (toks : List String) : List Doc :=
  if docs.any (fun d => d.path = rel) then
    docs.map fun d =>
      if d.path = rel then
        { d with len := len, mtime := mtime, size := size, sha1 := sha1,
                 pathTokens := toks }
      else d
  else docs ++ [⟨newDocid docs, rel, len, mtime, size, sha1, toks⟩]

/-- The placeholder transaction (runs only when `skipped_empty > 0`):
for every dispatched rel without a populated result — including rels
whose task raised — re-stat the file (skip on `OSError`), hash it, and
upsert a zero-length doc row so incremental runs stop retrying it. -/
def applyPlaceholders (S : Store) (sw : List String) (opts : IndexOpts)
    (sig : String → Option (Int × Int)) (sha : String → String)
    (toIndex haveRels : List String) : Store :=
  toIndex.foldl
    (fun St rel =>
      if rel ∈ haveRels then St
      else
        match sig rel with
        | none => St
        | some (m, s) =>
          { St with
            docs := upsertDoc St.docs rel 0 m s (sha rel) (pathTokensOf opts sw rel) })
    S

/-- `INSERT OR REPLACE INTO postings(term, docid, tf)`: drop any
existing `(term, docid)` row, then insert. -/
def insertPosting (ps : List (String × Nat × Int)) (term : String) (docid : Nat)
    (tf : Int) : List (String × Nat × Int) :=
  ps.filter (fun q => ¬(q.1 = term ∧ q.2.1 = docid)) ++ [(term, docid, tf)]

/-- The main write transaction: for each populated result, upsert its
doc row with `len = sum(tf.values())`, fetch the docid back, and insert
its postings, skipping stopword terms. -/
def applyResults (S : Store) (sw : List String) (opts : IndexOpts)
    (results : List DocData) : Store :=
  results.foldl
    (fun St doc =>
      let dl : Int := (doc.tf.map (fun pr => pr.2)).foldl (· + ·) 0
      let docs' := upsertDoc St.docs doc.rel dl doc.mtime doc.size doc.sha1
        (pathTokensOf opts sw doc.rel)
      let docid := match lookupDoc docs' doc.rel with
        | some d => d.docid
        | none => 0
      let postings' := (doc.tf.filter (fun pr => pr.1 ∉ sw)).foldl
        (fun ps pr => insertPosting ps pr.1 docid pr.2) St.postings
      { St with docs := docs', postings := postings' })
    S

/-- The `terms` rebuild:
`DELETE FROM terms; INSERT ... SELECT term, COUNT(*) FROM postings GROUP
BY term` — one row per distinct term with its row count. -/
def rebuildTerms (postings : List (String × Nat × Int)) : List (String × Int) :=
  (dedupKeepFirst (postings.map (fun pr => pr.1))).map
    (fun t => (t, ((postings.filter (fun pr => pr.1 = t)).length : Int)))

/-- `_doc_len`: `SELECT COUNT(*), COALESCE(AVG(len), 0.0) FROM docs`. -/
def docLenMeta (docs : List Doc) : Int × ℚ :=
  ((docs.length : Int),
   if docs.length = 0 then 0
   else ((docs.map (fun d => d.len)).foldl (· + ·) 0 : ℚ) / (docs.length : ℚ))

/-- `index(db_path, root, opts, incremental)`: the full pipeline of the
source, state-passing over `Store`. -/
def indexRun (S₀ : Store) (root : String) (rels : List String)
    (sig : String → Option (Int × Int)) (sha : String → String)
    (task : String → TaskOutcome) (opts : IndexOpts) (incremental : Bool) :
    Store × IndexStats :=
  let S1 : Store :=
    { S₀ with meta := { S₀.meta with root := some root, version := some "2" } }
  let toRemove := toRemoveOf S1.docs rels
  let plan := planOf S1.docs rels sig incremental
  let toIndex := plan.1
  let unchanged := plan.2
  let S2 := removeDocs S1 toRemove
  let S3 := deleteChangedPostings S2 toIndex
  let sw := if opts.stopwords then DEFAULT_STOPWORDS else []
  let results := resultsOf toIndex task
  let skippedEmpty := skippedEmptyOf toIndex task
  let failed := failedOf toIndex task
  let S4 :=
    if 0 < skippedEmpty then
      applyPlaceholders S3 sw opts sig sha toIndex (results.map (fun d => d.rel))
    else S3
  let S5 := applyResults S4 sw opts results
  let indexed := results.length
  let S6 :=
    if 0 < indexed ∨ toRemove ≠ [] ∨ 0 < skippedEmpty then
      { S5 with terms := rebuildTerms S5.postings }
    else S5
  let dm := docLenMeta S6.docs
  let S7 : Store :=
    { S6 with meta := { S6.meta with totalDocs := some dm.1, avgdl := some dm.2 } }
  (S7, ⟨dm.1, dm.2, indexed, unchanged, toRemove.length, failed⟩)

/-! ### Commit trace

`index` brackets its writes in explicit `BEGIN`/`COMMIT` pairs plus two
autocommitted `con.commit()` calls; the trace below records, from the
same plan data, which transactions a run commits and in which order. -/

/-- The write transactions `index` can commit, in source order:
the `root`/`version` meta commit (line 461), T1 stale-doc removal, T2
changed-posting deletion, the empty-doc placeholder transaction, the
docs+postings transaction (its `BEGIN`/`COMMIT` run unconditionally),
the `terms` rebuild, and the final `total_docs`/`avgdl` meta commit. -/
inductive Tx where
  | metaInit : Tx
  | removeStale : Tx
  | delPostings : Tx
  | placeholders : Tx
  | docsInsert : Tx
  | termsRebuild : Tx
  | metaFinal : Tx
deriving DecidableEq, Repr

/-- The sequence of write transactions one `index` run commits,
computed from the same plans as `indexRun`. -/
def indexTxTrace (S₀ : Store) (rels : List String)
    (sig : String → Option (Int × Int)) (task : String → TaskOutcome)
    (incremental : Bool) : List Tx :=
  let toRemove := toRemoveOf S₀.docs rels
  let plan := planOf S₀.docs rels sig incremental
  let toIndex := plan.1
  let results := resultsOf toIndex task
  let skippedEmpty := skippedEmptyOf toIndex task
  [Tx.metaInit]
    ++ (if toRemove ≠ [] then [Tx.removeStale] else [])
    ++ (if toIndex ≠ [] then [Tx.delPostings] else [])
    ++ (if 0 < skippedEmpty then [Tx.placeholders] else [])
    ++ [Tx.docsInsert]
    ++ (if 0 < results.length ∨ toRemove ≠ [] ∨ 0 < skippedEmpty then
          [Tx.termsRebuild]
        else [])
    ++ [Tx.metaFinal]



/-- The planning loop's changed-test, pointwise: a rel goes to
`to_index` iff its `file_sig` succeeds and the stored `(mtime, size)`
row is absent or different. -/
def relChanged (docs : List Doc) (sig : String → Option (Int × Int))
    (rel : String) : Bool :=
  match sig rel with
  | none => false
  | some (m, s) =>
    match lookupDoc docs rel with
    | some ex => if ex.mtime = m ∧ ex.size = s then false else true
    | none => true

/-- The planning loop's unchanged-test, pointwise: `file_sig` succeeds
and the stored `(mtime, size)` matches. -/
def relUnchanged (docs : List Doc) (sig : String → Option (Int × Int))
    (rel : String) : Bool :=
  match sig rel with
  | none => false
  | some (m, s) =>
    match lookupDoc docs rel with
    | some ex => if ex.mtime = m ∧ ex.size = s then true else false
    | none => false

/-- A run input where `rel`'s worker returns a populated result whose
`(mtime, size)` agrees with the planner's `file_sig`: the normal case
for an unchanged, readable text file. -/
def taskDoneMatching (sig : String → Option (Int × Int))
    (task : String → TaskOutcome) (rel : String) : Bool :=
  match sig rel, task rel with
  | some (m, s), TaskOutcome.done m' s' _ _ => if m = m' ∧ s = s' then true else false
  | _, _ => false

/-! ## Spec-side definitions

The claims state per-term BM25 contributions in closed form over the
store; the definitions below transcribe those words (lookups `df(t)`,
`tf(t, d)`, the `dl`/`avgdl` defaults, the idf formula) so that the
fold-based searcher above can be proved equal to them. -/

/-- `df(t)`: the `df` column of the `terms` row for `t`. -/
def dfOf (S : Store) (t : String) : Option Int :=
  (S.terms.find? (fun pr => pr.1 = t)).map (fun pr => pr.2)

/-- `tf(t, d)`: the `tf` column of the postings row `(t, d)`. -/
def tfOf (S : Store) (t : String) (d : Nat) : Option Int :=
  (S.postings.find? (fun pr => pr.1 = t ∧ pr.2.1 = d)).map (fun pr => pr.2.2)

/-- The claim's per-term BM25 contribution for `(t, d)`, without the
path boost: `idf(t) * (tf * (k1 + 1)) / (tf + k1 * (1 - b + b * dl/avgdl))`
with `idf(t) = log((N - df + 0.5) / (df + 0.5) + 1)`, `N = total_docs`,
`dl` the doc's `len` defaulting to 1 when zero, and `avgdl` read from
`meta` defaulting to 1; zero when the term is not in `terms`, the doc
does not exist, there is no such posting, or a filter excludes the
doc. -/
def plainTermScore (log : ℚ → ℚ) (S : Store) (p : SearchParams) (t : String)
    (d : Nat) : ℚ :=
  ((dfOf S t).bind fun df =>
    (docById S d).bind fun doc =>
      (tfOf S t d).map fun (tf : Int) =>
        if pathFilterOk p doc.path ∧ extsFilterOk p doc.path then
          let N : ℚ := (metaTotalDocs S : ℚ)
          let avgdl := metaAvgdl S
          let dl : ℚ := if doc.len = 0 then 1 else (doc.len : ℚ)
          let idf := log ((N - (df : ℚ) + 1/2) / ((df : ℚ) + 1/2) + 1)
          idf * ((tf : ℚ) * (p.k1 + 1)) /
            ((tf : ℚ) + p.k1 * (1 - p.b + p.b * (dl / avgdl)))
        else 0).getD 0

/-- The path-boost multiplier for `(t, d)`: `path_boost` when `t` is in
the doc's stored path-token set, else 1. -/
def boostFactor (S : Store) (p : SearchParams) (t : String) (d : Nat) : ℚ :=
  ((docById S d).map fun doc =>
    if t ∈ doc.pathTokens then p.pathBoost else 1).getD 1

/-- Invariant 2 of the spec, as claim C4 words it: every `terms` row
`(t, df)` has `df` equal to the number of distinct docids `d` with a
postings row `(t, d)`. -/
def dfInvariant (S : Store) : Prop :=
  ∀ pr ∈ S.terms,
    pr.2 = ((((S.postings.filter (fun q => q.1 = pr.1)).map
      (fun q => q.2.1)).dedup).length : Int)

/-- The strict source-order of all write transactions an `index` run
can commit. -/
def fullTxOrder : List Tx :=
  [Tx.metaInit, Tx.removeStale, Tx.delPostings, Tx.placeholders,
   Tx.docsInsert, Tx.termsRebuild, Tx.metaFinal]

/-! ## Concrete fixtures for counterexamples and witnesses -/

/-- A stand-in for `math.log` used in concrete evaluations: any `log`
with `log x > 0` for `x > 1` exhibits the same rankings, and `x - 1`
is such a function (it also brackets `ln` from above on `x ≥ 1`). -/
def toyLog : ℚ → ℚ := fun x => x - 1

/-- A one-doc store whose single doc has the query term in its path
tokens (`qq.md` tokenizes to `["qq", "md"]`), meta consistent with one
doc of length 10. -/
def boostStore : Store :=
  { docs := [⟨1, "qq.md", 10, 0, 0, "", ["qq", "md"]⟩],
    postings := [("qq", 1, 1)],
    terms := [("qq", 1)],
    meta := ⟨some "/r", some "2", some 1, some 10⟩ }

/-- Options fixture: no stemming, stopwords on (the defaults of
`IndexOptions`). -/
def defaultOpts : IndexOpts := ⟨false, true⟩

/-- Fixture for the C4 counterexample: the store left by indexing one
file `ab.txt` whose content tokenized to `hello hello world`. -/
def c4Store : Store :=
  (indexRun emptyStore "/r" ["ab.txt"] (fun _ => some (1, 10)) (fun _ => "h")
    (fun _ => .done 1 10 "h" [("hello", 2), ("world", 1)]) defaultOpts true).1

/-- The C4 failing run: `ab.txt` changed on disk (`file_sig` now
`(2, 11)`), and the single worker task raises. -/
def c4After : Store :=
  (indexRun c4Store "/r" ["ab.txt"] (fun _ => some (2, 11)) (fun _ => "h")
    (fun _ => .failed) defaultOpts true).1

/-- Fixture for the C3 counterexample: a three-doc store
(`a.txt`, `b.txt`, `c.txt`, all indexed). -/
def c3Store : Store :=
  (indexRun emptyStore "/r" ["a.txt", "b.txt", "c.txt"] (fun _ => some (1, 10))
    (fun _ => "h") (fun _ => .done 1 10 "h" [("hello", 2), ("world", 1)])
    defaultOpts true).1

/-- The C3 run: `c.txt` vanished, `a.txt` and `b.txt` changed;
`a.txt`'s task succeeds and `b.txt`'s returns `None`. -/
def c3Task : String → TaskOutcome := fun rel =>
  if rel = "a.txt" then .done 2 11 "h" [("xx", 1)] else .empty

/-- The two-doc store after adding a doc (`new.md`, docid 2) that
contains `qq` twice — strictly more often than `qq.md`'s once — with
equal length 10: the C8 counterexample fixture, built by two actual
index runs. -/
def c8Store : Store :=
  (indexRun
    (indexRun emptyStore "/r" ["qq.md"] (fun _ => some (1, 10)) (fun _ => "h")
      (fun _ => .done 1 10 "h" [("qq", 1), ("aa", 9)]) defaultOpts true).1
    "/r" ["qq.md", "new.md"]
    (fun rel => if rel = "new.md" then some (2, 11) else some (1, 10))
    (fun _ => "h")
    (fun _ => .done 2 11 "h" [("qq", 2), ("bb", 8)]) defaultOpts true).1

/-- A two-doc store where doc 2 holds the query term strictly more often
than doc 1 at equal length, and the term occurs in no doc's path tokens:
the setting of the amended C8 theorem. -/
def monoStore : Store :=
  { docs := [⟨1, "aa.md", 10, 0, 0, "", ["aa", "md"]⟩,
             ⟨2, "bb.md", 10, 0, 0, "", ["bb", "md"]⟩],
    postings := [("qq", 1, 1), ("qq", 2, 3)],
    terms := [("qq", 2)],
    meta := ⟨some "/r", some "2", some 2, some 10⟩ }

/-- The `(term, docid)` key of each postings row (the table's primary
key). -/
def postKeys (ps : List (String × Nat × Int)) : List (String × Nat) :=
  ps.map (fun pr => (pr.1, pr.2.1))

/-- The pure per-row score of `search`'s inner loop (well-defined
because every row carries the joined doc's own `path`/`len`/
`path_tokens`, which is also what the caches hold for its docid): zero
when the extension filter drops the row, else the BM25 term score,
boosted when the term is among the doc's path tokens. -/
def rowScore (p : SearchParams) (avgdl idf : ℚ) (term : String) (r : Row) : ℚ :=
  if extsFilterOk p r.path then
    let dl : ℚ := if r.len = 0 then 1 else (r.len : ℚ)
    let denom := (r.tf : ℚ) + p.k1 * (1 - p.b + p.b * (dl / avgdl))
    let base := idf * ((r.tf : ℚ) * (p.k1 + 1)) / denom
    if term ∈ r.pathTokens then base * p.pathBoost else base
  else 0

/-- The total contribution one query term adds to one doc's running
score: zero for terms missing from `terms`, else the sum of the scores
of this doc's retrieved rows for the term. -/
def termContrib (log : ℚ → ℚ) (S : Store) (p : SearchParams) (nDocs : Int)
    (avgdl : ℚ) (t : String) (d : Nat) : ℚ :=
  ((S.terms.find? (fun pr => pr.1 = t)).map fun pr =>
    ((rowsFor S p t).map
      (fun r => if r.docid = d then rowScore p avgdl (bm25_idf log nDocs pr.2) t r
                else 0)).sum).getD 0

/-- A retrieval row agrees with the (first) `docs` row of its docid —
true of every row `rowsFor` yields, since the JOIN built it from that
row. -/
def rowConsistent (S : Store) (r : Row) : Prop :=
  ∃ dd, docById S r.docid = some dd ∧ r.path = dd.path ∧ r.len = dd.len ∧
    r.pathTokens = dd.pathTokens

/-- Every cache entry agrees with the `docs` row of its docid. -/
def cacheConsistent (S : Store) (info : List CachedDoc) : Prop :=
  ∀ e ∈ info, ∃ dd, docById S e.docid = some dd ∧ e.path = dd.path ∧
    e.len = dd.len ∧ e.pathTokens = dd.pathTokens

/-- A doc is touched by a term: the term is in `terms` and some
retrieved row for it has this docid and passes the extension filter
(the condition under which `search` creates a `doc_scores` entry). -/
def rowHit (S : Store) (p : SearchParams) (t : String) (d : Nat) : Prop :=
  (S.terms.find? (fun pr => pr.1 = t)).isSome ∧
    ∃ r ∈ rowsFor S p t, r.docid = d ∧ extsFilterOk p r.path

/-! ## Helper lemmas -/

theorem sublist_ite_singleton {c : Prop} [Decidable c] (x : Tx) :
    List.Sublist (if c then [x] else []) [x] := by
  split
  · exact List.Sublist.refl _
  · exact List.nil_sublist _

theorem postKeys_filter_sublist (ps : List (String × Nat × Int))
    (q : String × Nat × Int → Bool) :
    List.Sublist (postKeys (ps.filter q)) (postKeys ps) :=
  (List.filter_sublist ps).map _

theorem postKeys_filter_nodup {ps : List (String × Nat × Int)}
    (q : String × Nat × Int → Bool) (h : (postKeys ps).Nodup) :
    (postKeys (ps.filter q)).Nodup :=
  h.sublist (postKeys_filter_sublist ps q)

theorem insertPosting_nodup {ps : List (String × Nat × Int)} {t : String}
    {d : Nat} {tf : Int} (h : (postKeys ps).Nodup) :
    (postKeys (insertPosting ps t d tf)).Nodup := by
  unfold insertPosting postKeys
  rw [List.map_append]
  apply List.Nodup.append
  · exact postKeys_filter_nodup _ h
  · simp
  · intro x hx hy
    simp only [List.map_cons, List.map_nil, List.mem_singleton] at hy
    subst hy
    simp only [postKeys, List.mem_map, List.mem_filter] at hx
    obtain ⟨pr, ⟨_, hpr⟩, hkey⟩ := hx
    have h1 : pr.1 = t := congrArg Prod.fst hkey
    have h2 : pr.2.1 = d := congrArg Prod.snd hkey
    simp [h1, h2] at hpr

theorem foldl_insertPosting_nodup {tfs : List (String × Int)} {d : Nat}
    {ps : List (String × Nat × Int)} (h : (postKeys ps).Nodup) :
    (postKeys (tfs.foldl (fun acc pr => insertPosting acc pr.1 d pr.2) ps)).Nodup := by
  induction tfs generalizing ps with
  | nil => exact h
  | cons hd tl ih => exact ih (insertPosting_nodup h)

theorem applyResults_postings_nodup {rs : List DocData} {S : Store}
    {sw : List String} {opts : IndexOpts} (h : (postKeys S.postings).Nodup) :
    (postKeys (applyResults S sw opts rs).postings).Nodup := by
  induction rs generalizing S with
  | nil => exact h
  | cons hd tl ih =>
    show (postKeys (applyResults _ sw opts tl).postings).Nodup
    exact ih (foldl_insertPosting_nodup h)

theorem applyPlaceholders_postings (S : Store) (sw : List String)
    (opts : IndexOpts) (sig : String → Option (Int × Int))
    (sha : String → String) (toIndex haveRels : List String) :
    (applyPlaceholders S sw opts sig sha toIndex haveRels).postings = S.postings := by
  induction toIndex generalizing S with
  | nil => rfl
  | cons hd tl ih =>
    simp only [applyPlaceholders, List.foldl_cons] at ih ⊢
    by_cases hmem : hd ∈ haveRels
    · rw [if_pos hmem]
      exact ih S
    · rw [if_neg hmem]
      cases hsig : sig hd with
      | none => exact ih S
      | some ms => exact ih _

theorem applyPlaceholders_terms (S : Store) (sw : List String)
    (opts : IndexOpts) (sig : String → Option (Int × Int))
    (sha : String → String) (toIndex haveRels : List String) :
    (applyPlaceholders S sw opts sig sha toIndex haveRels).terms = S.terms := by
  induction toIndex generalizing S with
  | nil => rfl
  | cons hd tl ih =>
    simp only [applyPlaceholders, List.foldl_cons] at ih ⊢
    by_cases hmem : hd ∈ haveRels
    · rw [if_pos hmem]; exact ih S
    · rw [if_neg hmem]
      cases hsig : sig hd with
      | none => exact ih S
      | some ms => exact ih _

theorem rebuildTerms_df {ps : List (String × Nat × Int)}
    (hnd : (postKeys ps).Nodup) (pr : String × Int) (hpr : pr ∈ rebuildTerms ps) :
    pr.2 = ((((ps.filter (fun q => q.1 = pr.1)).map (fun q => q.2.1)).dedup).length : Int) := by
  unfold rebuildTerms at hpr
  obtain ⟨t, _, rfl⟩ := List.mem_map.mp hpr
  show ((ps.filter _).length : Int) = _
  have hsub : (postKeys (ps.filter (fun q => q.1 = t))).Nodup :=
    postKeys_filter_nodup _ hnd
  have hconst : ∀ q ∈ ps.filter (fun q => q.1 = t), q.1 = t := by
    intro q hq
    exact of_decide_eq_true (List.mem_filter.mp hq).2
  have hdocids : ((ps.filter (fun q => q.1 = t)).map (fun q => q.2.1)).Nodup := by
    unfold postKeys at hsub
    have : ((ps.filter (fun q => q.1 = t)).map (fun q => q.2.1)) =
        (((ps.filter (fun q => q.1 = t)).map (fun pr => (pr.1, pr.2.1))).map Prod.snd) := by
      rw [List.map_map]
      rfl
    rw [this]
    apply List.Nodup.map_on _ hsub
    intro x hx y hy hxy
    obtain ⟨qx, hqx, rfl⟩ := List.mem_map.mp hx
    obtain ⟨qy, hqy, rfl⟩ := List.mem_map.mp hy
    have := hconst qx hqx
    have := hconst qy hqy
    ext
    · simp_all
    · exact hxy
  rw [List.Nodup.dedup hdocids, List.length_map]

theorem dfInvariant_of_rebuilt (docs : List Doc) (ps : List (String × Nat × Int))
    (m : MetaTable) (hnd : (postKeys ps).Nodup) :
    dfInvariant ⟨docs, ps, rebuildTerms ps, m⟩ := by
  intro pr hpr
  exact rebuildTerms_df hnd pr hpr

/-- Extracting `dfInvariant` from a store whose `terms` table equals the
rebuild of its own `postings`. -/
theorem dfInvariant_of_eq (S : Store) (h1 : S.terms = rebuildTerms S.postings)
    (hnd : (postKeys S.postings).Nodup) : dfInvariant S := by
  intro pr hpr
  rw [h1] at hpr
  exact rebuildTerms_df hnd pr hpr

/-! ## Claim C2 — tokenizer round-trip shape -/

/-- C2 counterexample: `tokenize("FooBar_baz x86")` (stemming and
stopwords disabled) is not `["foo", "bar", "baz", "x", "86"]` — the
fragment `"x"` produced by the letter→digit split of `"x86"` has length
1 and is discarded by `_split_identifier`'s `len(x) >= 2` filter. -/
theorem c2_tokenize_shape_counterexample :
    tokenize "FooBar_baz x86" false [] ≠ ["foo", "bar", "baz", "x", "86"] := by
  decide

/-- C2 (amended): `tokenize("FooBar_baz x86")` with stemming and
stopwords disabled returns exactly `["foo", "bar", "baz", "86"]`
(splitting on `_`, at lowercase→uppercase, letter→digit and digit→letter
boundaries, lowercasing, and discarding fragments of length < 2 — which
also discards the length-1 fragment `"x"`). -/
theorem c2_tokenize_shape :
    tokenize "FooBar_baz x86" false [] = ["foo", "bar", "baz", "86"] := by
  decide

/-! ## Claim C3 — transaction discipline -/

/-- C3 counterexample: a run over a three-doc store in which one file
vanished (T1 fires), two files changed (T2 fires), one worker task
succeeds and one returns `None` commits all seven write transactions —
`meta(root,version)`, T1, T2, the placeholder transaction, the
docs+postings transaction, the `terms` rebuild and the final meta
refresh — so the indexer does not commit at most four write
transactions, and the placeholder rows and the new docs/postings commit
in two distinct transactions rather than one T3. -/
theorem c3_four_transactions_counterexample :
    indexTxTrace c3Store ["a.txt", "b.txt"] (fun _ => some (2, 11)) c3Task true =
      fullTxOrder ∧
    ¬ (indexTxTrace c3Store ["a.txt", "b.txt"] (fun _ => some (2, 11)) c3Task true).length ≤ 4 := by
  constructor
  · decide
  · decide

/-- C3 (amended): every run of `index` commits at most seven write
transactions, each atomic, in the strict source order
`meta(root,version)` < T1 (remove stale docs) < T2 (delete postings of
changed docs) < empty-doc placeholders < insert of new/updated docs and
their postings < rebuild of `terms` from `postings` < final
`total_docs`/`avgdl` meta refresh (the claim's T3 is split into two
transactions, and `meta` is refreshed by three commits, not inside
T4). -/
theorem c3_commit_order (S : Store) (rels : List String)
    (sig : String → Option (Int × Int)) (task : String → TaskOutcome)
    (inc : Bool) :
    List.Sublist (indexTxTrace S rels sig task inc) fullTxOrder ∧
    (indexTxTrace S rels sig task inc).length ≤ 7 := by
  have hsub : List.Sublist (indexTxTrace S rels sig task inc) fullTxOrder := by
    unfold indexTxTrace fullTxOrder
    exact
      List.Sublist.append
        (List.Sublist.append
          (List.Sublist.append
            (List.Sublist.append
              (List.Sublist.append
                (List.Sublist.append (List.Sublist.refl [Tx.metaInit])
                  (sublist_ite_singleton Tx.removeStale))
                (sublist_ite_singleton Tx.delPostings))
              (sublist_ite_singleton Tx.placeholders))
            (List.Sublist.refl [Tx.docsInsert]))
          (sublist_ite_singleton Tx.termsRebuild))
        (List.Sublist.refl [Tx.metaFinal])
  exact ⟨hsub, hsub.length_le.trans (by decide)⟩

/-! ## Claim C4 — df derived from postings -/

/-- C4 counterexample: start from a one-doc store (`c4Store`, containing
`hello`/`world` postings), change the file on disk and let its single
worker task raise.  The run completes with `failed = 1`, T2 has deleted
the doc's postings, but the `terms` rebuild is skipped (nothing was
indexed, removed, or recorded as empty), so `terms` still claims
`df(hello) = 1` while no `(hello, d)` posting exists. -/
theorem c4_df_counterexample :
    (indexRun c4Store "/r" ["ab.txt"] (fun _ => some (2, 11)) (fun _ => "h")
      (fun _ => .failed) defaultOpts true).2.failed = 1 ∧
    ¬ dfInvariant c4After := by
  constructor
  · decide
  · unfold dfInvariant
    decide

/-- C4 (amended): after every completed `index` run in which the
`terms`-rebuild transaction executes — that is, at least one document
was indexed, removed, or recorded as an empty placeholder — every
`terms` row `(t, df)` has `df` equal to the number of distinct docids
`d` with `(t, d)` in `postings` (given the primary-key uniqueness of
the prior store's posting keys).  When a run only deletes postings of
changed docs and every worker task fails, the rebuild is skipped and
stale `df` values survive (see the counterexample). -/
theorem c4_df_rebuilt (S₀ : Store) (root : String) (rels : List String)
    (sig : String → Option (Int × Int)) (sha : String → String)
    (task : String → TaskOutcome) (opts : IndexOpts) (inc : Bool)
    (hnd : (postKeys S₀.postings).Nodup)
    (hT4 : 0 < (resultsOf (planOf S₀.docs rels sig inc).1 task).length ∨
      toRemoveOf S₀.docs rels ≠ [] ∨
      0 < skippedEmptyOf (planOf S₀.docs rels sig inc).1 task) :
    dfInvariant (indexRun S₀ root rels sig sha task opts inc).1 := by
  unfold indexRun
  simp only []
  rw [if_pos hT4]
  apply dfInvariant_of_eq
  · rfl
  · show (postKeys (applyResults _ _ _ _).postings).Nodup
    apply applyResults_postings_nodup
    by_cases hsk : 0 < skippedEmptyOf (planOf S₀.docs rels sig inc).1 task
    · rw [if_pos hsk, applyPlaceholders_postings]
      exact postKeys_filter_nodup _ (postKeys_filter_nodup _ hnd)
    · rw [if_neg hsk]
      exact postKeys_filter_nodup _ (postKeys_filter_nodup _ hnd)

/-- C4 witness: the hypotheses of `c4_df_rebuilt` hold for the concrete
first indexing run that builds `c4Store`, and the invariant follows for
its resulting store. -/
theorem c4_df_rebuilt_witness :
    (postKeys emptyStore.postings).Nodup ∧
    (0 < (resultsOf
        (planOf emptyStore.docs ["ab.txt"] (fun _ => some (1, 10)) true).1
        (fun _ => .done 1 10 "h" [("hello", 2), ("world", 1)])).length ∨
      toRemoveOf emptyStore.docs ["ab.txt"] ≠ [] ∨
      0 < skippedEmptyOf
        (planOf emptyStore.docs ["ab.txt"] (fun _ => some (1, 10)) true).1
        (fun _ => .done 1 10 "h" [("hello", 2), ("world", 1)])) ∧
    dfInvariant c4Store :=
  ⟨by decide, Or.inl (by decide),
   c4_df_rebuilt emptyStore "/r" ["ab.txt"] (fun _ => some (1, 10)) (fun _ => "h")
     (fun _ => .done 1 10 "h" [("hello", 2), ("world", 1)]) defaultOpts true
     (by decide) (Or.inl (by decide))⟩

/-! ## Claim C9 — empty parse gives zero hits, not an error -/

/-- C9: whenever the query-term list produced by parsing (tokenization,
plus alternation expansion when the query contains `|`) is empty,
`search` returns the root and an empty hit list.  The model of `search`
is a total function into `String × List SearchHit`, mirroring that the
source returns normally (never raises) on empty results, so an empty
hit list is a value distinguishable from an exception. -/
theorem c9_empty_terms (log : ℚ → ℚ) (S : Store) (query : String) (p : SearchParams)
    (h : parseQTerms S query p.stem (if p.stopwords then DEFAULT_STOPWORDS else []) = []) :
    search log S query p = (metaRoot S, []) := by
  unfold search
  by_cases h0 : metaTotalDocs S ≤ 0
  · rw [if_pos h0]
  · rw [if_neg h0]
    simp [h]

/-- C9 witness: the single-letter query `"a"` tokenizes to nothing
(fragments of length < 2 are dropped), and `search` on a nonempty store
returns its root with zero hits. -/
theorem c9_empty_terms_witness :
    parseQTerms boostStore "a" defaultParams.stem
      (if defaultParams.stopwords then DEFAULT_STOPWORDS else []) = [] ∧
    search toyLog boostStore "a" defaultParams = (metaRoot boostStore, []) :=
  ⟨by decide, c9_empty_terms toyLog boostStore "a" defaultParams (by decide)⟩

/-! ## Claim C10 — searching a nonexistent store -/

/-- C10: `search` against a `db_path` where no store file exists
operates on the freshly initialised empty schema (`_connect` creates
the parent directories and the file, `init_db` the tables): `meta` has
no `root` or `total_docs` keys, so `root` defaults to `"."` and
`total_docs` to `0`, and `search` returns `(".", [])` from the
`total_docs <= 0` early exit, before the query is ever parsed — it does
not raise. -/
theorem c10_fresh_store (log : ℚ → ℚ) (query : String) (p : SearchParams) :
    search log emptyStore query p = (".", []) := rfl

theorem valueOf_nil (d : Nat) : valueOf [] d = 0 := rfl

theorem valueOf_cons (pr : Nat × ℚ) (tl : List (Nat × ℚ)) (d : Nat) :
    valueOf (pr :: tl) d = if pr.1 = d then pr.2 else valueOf tl d := by
  unfold valueOf
  by_cases h : pr.1 = d
  · simp [List.find?_cons, h]
  · simp [List.find?_cons, h]

theorem valueOf_addScore (sc : List (Nat × ℚ)) (d0 : Nat) (s : ℚ) (d : Nat) :
    valueOf (addScore sc d0 s) d = valueOf sc d + (if d0 = d then s else 0) := by
  induction sc with
  | nil =>
    rw [show addScore [] d0 s = [(d0, s)] from rfl, valueOf_cons, valueOf_nil]
    by_cases h : d0 = d <;> simp [h]
  | cons hd tl ih =>
    by_cases h1 : hd.1 = d0
    · rw [show addScore (hd :: tl) d0 s = (hd.1, hd.2 + s) :: tl from by
        simp [addScore, h1]]
      rw [valueOf_cons, valueOf_cons]
      by_cases h2 : hd.1 = d
      · rw [if_pos h2, if_pos h2, if_pos (h1 ▸ h2)]
      · rw [if_neg h2, if_neg h2, if_neg (fun hd0 => h2 (h1.symm ▸ hd0))]
        simp
    · rw [show addScore (hd :: tl) d0 s = hd :: addScore tl d0 s from by
        simp [addScore, h1]]
      rw [valueOf_cons, valueOf_cons]
      by_cases h2 : hd.1 = d
      · rw [if_pos h2, if_pos h2, if_neg (fun hd0 => h1 (h2.trans hd0.symm))]
        simp
      · rw [if_neg h2, if_neg h2, ih]

theorem mem_keys_addScore (sc : List (Nat × ℚ)) (d0 : Nat) (s : ℚ) (d : Nat) :
    d ∈ (addScore sc d0 s).map Prod.fst ↔ d ∈ sc.map Prod.fst ∨ d = d0 := by
  induction sc with
  | nil => simp [addScore, Eq.comm]
  | cons hd tl ih =>
    by_cases h1 : hd.1 = d0
    · rw [show addScore (hd :: tl) d0 s = (hd.1, hd.2 + s) :: tl from by
        simp [addScore, h1]]
      simp only [List.map_cons, List.mem_cons]
      constructor
      · rintro (h | h)
        · exact Or.inl (Or.inl h)
        · exact Or.inl (Or.inr h)
      · rintro ((h | h) | h)
        · exact Or.inl h
        · exact Or.inr h
        · exact Or.inl (h.trans h1.symm)
    · rw [show addScore (hd :: tl) d0 s = hd :: addScore tl d0 s from by
        simp [addScore, h1]]
      simp only [List.map_cons, List.mem_cons, ih]
      tauto

theorem keys_nodup_addScore (sc : List (Nat × ℚ)) (d0 : Nat) (s : ℚ)
    (h : (sc.map Prod.fst).Nodup) : ((addScore sc d0 s).map Prod.fst).Nodup := by
  induction sc with
  | nil => simp [addScore]
  | cons hd tl ih =>
    simp only [List.map_cons, List.nodup_cons] at h
    by_cases h1 : hd.1 = d0
    · rw [show addScore (hd :: tl) d0 s = (hd.1, hd.2 + s) :: tl from by
        simp [addScore, h1]]
      simp only [List.map_cons, List.nodup_cons]
      exact h
    · rw [show addScore (hd :: tl) d0 s = hd :: addScore tl d0 s from by
        simp [addScore, h1]]
      simp only [List.map_cons, List.nodup_cons]
      refine ⟨fun hmem => ?_, ih h.2⟩
      rcases (mem_keys_addScore tl d0 s hd.1).mp hmem with hm | hm
      · exact h.1 hm
      · exact h1 hm

theorem rowsFor_consistent (S : Store) (p : SearchParams) (t : String) :
    ∀ r ∈ rowsFor S p t, rowConsistent S r := by
  intro r hr
  unfold rowsFor at hr
  obtain ⟨pr, _, hpr⟩ := List.mem_filterMap.mp hr
  by_cases ht : pr.1 = t
  · rw [if_pos ht] at hpr
    cases hdd : docById S pr.2.1 with
    | none => rw [hdd] at hpr; cases hpr
    | some dd =>
      rw [hdd] at hpr
      dsimp only at hpr
      by_cases hpf : pathFilterOk p dd.path
      · rw [if_pos hpf] at hpr
        cases hpr
        exact ⟨dd, by
          constructor
          · rw [← hdd]
            congr 1
            have : dd.docid = pr.2.1 := by
              have := List.find?_some hdd
              exact of_decide_eq_true this
            exact this
          · exact ⟨rfl, rfl, rfl⟩⟩
      · rw [if_neg hpf] at hpr; cases hpr
  · rw [if_neg ht] at hpr; cases hpr

theorem procRow_skip (p : SearchParams) (avgdl idf : ℚ) (term : String)
    (st : ScanState) (r : Row) (hext : ¬ extsFilterOk p r.path) :
    procRow p avgdl idf term st r = st := by
  unfold procRow
  rw [if_neg hext]

theorem rowScore_skip (p : SearchParams) (avgdl idf : ℚ) (term : String)
    (r : Row) (hext : ¬ extsFilterOk p r.path) :
    rowScore p avgdl idf term r = 0 := by
  unfold rowScore
  rw [if_neg hext]

theorem procRow_pass (S : Store) (p : SearchParams) (avgdl idf : ℚ) (term : String)
    (st : ScanState) (r : Row) (hext : extsFilterOk p r.path)
    (hc : cacheConsistent S st.2) (hr : rowConsistent S r) :
    (procRow p avgdl idf term st r).1 =
      addScore st.1 r.docid (rowScore p avgdl idf term r) := by
  unfold procRow
  rw [if_pos hext]
  by_cases hany : st.2.any (fun e => e.docid = r.docid)
  · rw [if_pos hany]
    dsimp only
    have hex : ∃ e₀, st.2.find? (fun e => e.docid = r.docid) = some e₀ := by
      rw [← Option.isSome_iff_exists]
      rw [List.find?_isSome]
      obtain ⟨e₀, he₀, hprop⟩ := List.any_eq_true.mp hany
      exact ⟨e₀, he₀, hprop⟩
    obtain ⟨e₀, hfind⟩ := hex
    rw [hfind]
    obtain ⟨dd, hdd, hp, hl, ht⟩ := hr
    obtain ⟨dd', hdd', hp', hl', ht'⟩ := hc e₀ (List.mem_of_find?_eq_some hfind)
    have hprop := List.find?_some hfind
    have hid : e₀.docid = r.docid := of_decide_eq_true hprop
    rw [hid, hdd] at hdd'
    injection hdd' with hdd2
    subst hdd2
    dsimp only [Option.getD_some]
    rw [← hl] at hl'
    rw [← ht] at ht'
    rw [hl', ht']
    unfold rowScore
    rw [if_pos hext]
  · rw [if_neg hany]
    dsimp only
    have hnone : st.2.find? (fun e => e.docid = r.docid) = none := by
      rw [List.find?_eq_none]
      intro x hx
      intro hpx
      exact hany (List.any_eq_true.mpr ⟨x, hx, hpx⟩)
    rw [List.find?_append, hnone]
    simp only [Option.none_or]
    rw [show (List.find? (fun e => decide (e.docid = r.docid))
        [({ docid := r.docid, path := r.path, len := r.len,
            pathTokens := r.pathTokens } : CachedDoc)]) =
        some { docid := r.docid, path := r.path, len := r.len,
               pathTokens := r.pathTokens } from by simp]
    dsimp only [Option.getD_some]
    unfold rowScore
    rw [if_pos hext]

theorem procRow_cache (S : Store) (p : SearchParams) (avgdl idf : ℚ) (term : String)
    (st : ScanState) (r : Row) (hc : cacheConsistent S st.2) (hr : rowConsistent S r) :
    cacheConsistent S (procRow p avgdl idf term st r).2 := by
  by_cases hext : extsFilterOk p r.path
  · unfold procRow
    rw [if_pos hext]
    dsimp only
    by_cases hany : st.2.any (fun e => e.docid = r.docid)
    · rw [if_pos hany]
      exact hc
    · rw [if_neg hany]
      intro e he
      rcases List.mem_append.mp he with h | h
      · exact hc e h
      · simp only [List.mem_singleton] at h
        subst h
        exact hr
  · rw [procRow_skip _ _ _ _ _ _ hext]
    exact hc

theorem procRow_fst_addScore (p : SearchParams) (avgdl idf : ℚ) (term : String)
    (st : ScanState) (r : Row) (hext : extsFilterOk p r.path) :
    ∃ s, (procRow p avgdl idf term st r).1 = addScore st.1 r.docid s := by
  unfold procRow
  rw [if_pos hext]
  dsimp only
  exact ⟨_, rfl⟩

theorem mem_keys_procRow (p : SearchParams) (avgdl idf : ℚ) (term : String)
    (st : ScanState) (r : Row) (d : Nat) :
    d ∈ (procRow p avgdl idf term st r).1.map Prod.fst ↔
      d ∈ st.1.map Prod.fst ∨ (extsFilterOk p r.path ∧ d = r.docid) := by
  by_cases hext : extsFilterOk p r.path
  · obtain ⟨s, hs⟩ := procRow_fst_addScore p avgdl idf term st r hext
    rw [hs, mem_keys_addScore]
    simp [hext]
  · rw [procRow_skip _ _ _ _ _ _ hext]
    simp [hext]

theorem keys_nodup_procRow (p : SearchParams) (avgdl idf : ℚ) (term : String)
    (st : ScanState) (r : Row) (h : (st.1.map Prod.fst).Nodup) :
    ((procRow p avgdl idf term st r).1.map Prod.fst).Nodup := by
  by_cases hext : extsFilterOk p r.path
  · obtain ⟨s, hs⟩ := procRow_fst_addScore p avgdl idf term st r hext
    rw [hs]
    exact keys_nodup_addScore _ _ _ h
  · rw [procRow_skip _ _ _ _ _ _ hext]
    exact h

theorem foldRows_value (S : Store) (p : SearchParams) (avgdl idf : ℚ) (term : String)
    (rows : List Row) (d : Nat) :
    ∀ st : ScanState, cacheConsistent S st.2 → (∀ r ∈ rows, rowConsistent S r) →
      valueOf ((rows.foldl (procRow p avgdl idf term) st).1) d =
        valueOf st.1 d +
          ((rows.map (fun r =>
            if r.docid = d then rowScore p avgdl idf term r else 0)).sum) := by
  induction rows with
  | nil => intro st hc hrows; simp
  | cons r rows ih =>
    intro st hc hrows
    rw [List.foldl_cons]
    rw [ih (procRow p avgdl idf term st r)
      (procRow_cache S p avgdl idf term st r hc (hrows r (List.mem_cons_self r rows)))
      (fun r' hr' => hrows r' (List.mem_cons_of_mem r hr'))]
    have hval : valueOf (procRow p avgdl idf term st r).1 d =
        valueOf st.1 d + (if r.docid = d then rowScore p avgdl idf term r else 0) := by
      by_cases hext : extsFilterOk p r.path
      · rw [procRow_pass S p avgdl idf term st r hext hc
          (hrows r (List.mem_cons_self r rows))]
        rw [valueOf_addScore]
      · rw [procRow_skip _ _ _ _ _ _ hext,
          rowScore_skip _ _ _ _ _ hext]
        simp
    rw [hval, List.map_cons, List.sum_cons]
    ring

theorem foldRows_cache (S : Store) (p : SearchParams) (avgdl idf : ℚ) (term : String)
    (rows : List Row) :
    ∀ st : ScanState, cacheConsistent S st.2 → (∀ r ∈ rows, rowConsistent S r) →
      cacheConsistent S ((rows.foldl (procRow p avgdl idf term) st).2) := by
  induction rows with
  | nil => intro st hc _; exact hc
  | cons r rows ih =>
    intro st hc hrows
    rw [List.foldl_cons]
    exact ih _
      (procRow_cache S p avgdl idf term st r hc (hrows r (List.mem_cons_self r rows)))
      (fun r' hr' => hrows r' (List.mem_cons_of_mem r hr'))

theorem foldRows_keys (p : SearchParams) (avgdl idf : ℚ) (term : String)
    (rows : List Row) (d : Nat) :
    ∀ st : ScanState,
      (d ∈ ((rows.foldl (procRow p avgdl idf term) st).1.map Prod.fst) ↔
        d ∈ st.1.map Prod.fst ∨ ∃ r ∈ rows, extsFilterOk p r.path ∧ d = r.docid) := by
  induction rows with
  | nil => intro st; simp
  | cons r rows ih =>
    intro st
    rw [List.foldl_cons, ih, mem_keys_procRow]
    constructor
    · rintro ((h | h) | ⟨r', hr', h⟩)
      · exact Or.inl h
      · exact Or.inr ⟨r, List.mem_cons_self r rows, h⟩
      · exact Or.inr ⟨r', List.mem_cons_of_mem r hr', h⟩
    · rintro (h | ⟨r', hr', h⟩)
      · exact Or.inl (Or.inl h)
      · rcases List.mem_cons.mp hr' with rfl | hr'
        · exact Or.inl (Or.inr h)
        · exact Or.inr ⟨r', hr', h⟩

theorem foldRows_keys_nodup (p : SearchParams) (avgdl idf : ℚ) (term : String)
    (rows : List Row) :
    ∀ st : ScanState, ((st.1.map Prod.fst).Nodup) →
      (((rows.foldl (procRow p avgdl idf term) st).1.map Prod.fst).Nodup) := by
  induction rows with
  | nil => intro st h; exact h
  | cons r rows ih =>
    intro st h
    rw [List.foldl_cons]
    exact ih _ (keys_nodup_procRow p avgdl idf term st r h)

theorem procTerm_value (log : ℚ → ℚ) (S : Store) (p : SearchParams) (nDocs : Int)
    (avgdl : ℚ) (st : ScanState) (t : String) (d : Nat)
    (hc : cacheConsistent S st.2) :
    valueOf ((procTerm log S p nDocs avgdl st t).1) d =
      valueOf st.1 d + termContrib log S p nDocs avgdl t d := by
  unfold procTerm termContrib
  cases hfind : S.terms.find? (fun pr => pr.1 = t) with
  | none => simp
  | some pr =>
    simp only [Option.map_some', Option.getD_some]
    exact foldRows_value S p avgdl (bm25_idf log nDocs pr.2) t (rowsFor S p t) d st hc
      (rowsFor_consistent S p t)

theorem procTerm_cache (log : ℚ → ℚ) (S : Store) (p : SearchParams) (nDocs : Int)
    (avgdl : ℚ) (st : ScanState) (t : String) (hc : cacheConsistent S st.2) :
    cacheConsistent S ((procTerm log S p nDocs avgdl st t).2) := by
  unfold procTerm
  cases hfind : S.terms.find? (fun pr => pr.1 = t) with
  | none => exact hc
  | some pr =>
    exact foldRows_cache S p avgdl (bm25_idf log nDocs pr.2) t (rowsFor S p t) st hc
      (rowsFor_consistent S p t)

theorem procTerm_keys (log : ℚ → ℚ) (S : Store) (p : SearchParams) (nDocs : Int)
    (avgdl : ℚ) (st : ScanState) (t : String) (d : Nat) :
    d ∈ ((procTerm log S p nDocs avgdl st t).1.map Prod.fst) ↔
      d ∈ st.1.map Prod.fst ∨ rowHit S p t d := by
  unfold procTerm rowHit
  cases hfind : S.terms.find? (fun pr => pr.1 = t) with
  | none =>
    simp only [hfind, Option.isSome_none, Bool.false_eq_true, false_and, or_false]
  | some pr =>
    rw [foldRows_keys]
    simp only [hfind, Option.isSome_some, true_and]
    constructor
    · rintro (h | ⟨r, hr, hext, hd⟩)
      · exact Or.inl h
      · exact Or.inr ⟨r, hr, hd.symm, hext⟩
    · rintro (h | ⟨r, hr, hd, hext⟩)
      · exact Or.inl h
      · exact Or.inr ⟨r, hr, hext, hd.symm⟩

theorem procTerm_keys_nodup (log : ℚ → ℚ) (S : Store) (p : SearchParams)
    (nDocs : Int) (avgdl : ℚ) (st : ScanState) (t : String)
    (h : (st.1.map Prod.fst).Nodup) :
    (((procTerm log S p nDocs avgdl st t).1.map Prod.fst).Nodup) := by
  unfold procTerm
  cases hfind : S.terms.find? (fun pr => pr.1 = t) with
  | none => exact h
  | some pr => exact foldRows_keys_nodup _ _ _ _ _ _ h

theorem foldTerms_value (log : ℚ → ℚ) (S : Store) (p : SearchParams) (nDocs : Int)
    (avgdl : ℚ) (qts : List String) (d : Nat) :
    ∀ st : ScanState, cacheConsistent S st.2 →
      valueOf ((qts.foldl (procTerm log S p nDocs avgdl) st).1) d =
        valueOf st.1 d +
          ((qts.map (fun t => termContrib log S p nDocs avgdl t d)).sum) := by
  induction qts with
  | nil => intro st hc; simp
  | cons t qts ih =>
    intro st hc
    rw [List.foldl_cons, ih _ (procTerm_cache log S p nDocs avgdl st t hc),
      procTerm_value log S p nDocs avgdl st t d hc, List.map_cons, List.sum_cons]
    ring

theorem scanTerms_value (log : ℚ → ℚ) (S : Store) (p : SearchParams) (nDocs : Int)
    (avgdl : ℚ) (qts : List String) (d : Nat) :
    valueOf ((scanTerms log S p nDocs avgdl qts).1) d =
      ((qts.map (fun t => termContrib log S p nDocs avgdl t d)).sum) := by
  unfold scanTerms
  rw [foldTerms_value log S p nDocs avgdl qts d ([], []) (by intro e he; cases he)]
  simp [valueOf_nil]

theorem foldTerms_keys (log : ℚ → ℚ) (S : Store) (p : SearchParams) (nDocs : Int)
    (avgdl : ℚ) (qts : List String) (d : Nat) :
    ∀ st : ScanState,
      (d ∈ ((qts.foldl (procTerm log S p nDocs avgdl) st).1.map Prod.fst) ↔
        d ∈ st.1.map Prod.fst ∨ ∃ t ∈ qts, rowHit S p t d) := by
  induction qts with
  | nil => intro st; simp
  | cons t qts ih =>
    intro st
    rw [List.foldl_cons, ih, procTerm_keys]
    constructor
    · rintro ((h | h) | ⟨t', ht', h⟩)
      · exact Or.inl h
      · exact Or.inr ⟨t, List.mem_cons_self t qts, h⟩
      · exact Or.inr ⟨t', List.mem_cons_of_mem t ht', h⟩
    · rintro (h | ⟨t', ht', h⟩)
      · exact Or.inl (Or.inl h)
      · rcases List.mem_cons.mp ht' with rfl | ht'
        · exact Or.inl (Or.inr h)
        · exact Or.inr ⟨t', ht', h⟩

theorem scanTerms_keys (log : ℚ → ℚ) (S : Store) (p : SearchParams) (nDocs : Int)
    (avgdl : ℚ) (qts : List String) (d : Nat) :
    d ∈ ((scanTerms log S p nDocs avgdl qts).1.map Prod.fst) ↔
      ∃ t ∈ qts, rowHit S p t d := by
  unfold scanTerms
  rw [foldTerms_keys]
  simp

theorem scanTerms_keys_nodup (log : ℚ → ℚ) (S : Store) (p : SearchParams)
    (nDocs : Int) (avgdl : ℚ) (qts : List String) :
    (((scanTerms log S p nDocs avgdl qts).1.map Prod.fst).Nodup) := by
  unfold scanTerms
  have : ∀ (st : ScanState), ((st.1.map Prod.fst).Nodup) →
      (((qts.foldl (procTerm log S p nDocs avgdl) st).1.map Prod.fst).Nodup) := by
    induction qts with
    | nil => intro st h; exact h
    | cons t qts ih =>
      intro st h
      rw [List.foldl_cons]
      exact ih _ (procTerm_keys_nodup log S p nDocs avgdl st t h)
  exact this ([], []) (by simp)

theorem docById_docid {S : Store} {i : Nat} {dd : Doc} (h : docById S i = some dd) :
    dd.docid = i := by
  unfold docById at h
  have h2 := List.find?_some h
  exact of_decide_eq_true h2

theorem rowsForAux_sum_zero (S : Store) (p : SearchParams) (t : String) (d : Nat)
    (f : Row → ℚ) (ps : List (String × Nat × Int))
    (habs : ∀ pr ∈ ps, ¬(pr.1 = t ∧ pr.2.1 = d)) :
    (((ps.filterMap fun pr =>
        if pr.1 = t then
          match docById S pr.2.1 with
          | some dd =>
            if pathFilterOk p dd.path then
              some (⟨dd.docid, pr.2.2, dd.path, dd.len, dd.pathTokens⟩ : Row)
            else none
          | none => none
        else none).map (fun r => if r.docid = d then f r else 0)).sum) = 0 := by
  apply List.sum_eq_zero
  intro x hx
  obtain ⟨r, hr, rfl⟩ := List.mem_map.mp hx
  obtain ⟨pr, hpr, hg⟩ := List.mem_filterMap.mp hr
  by_cases hpt : pr.1 = t
  · rw [if_pos hpt] at hg
    cases hdb : docById S pr.2.1 with
    | none => rw [hdb] at hg; cases hg
    | some dd =>
      rw [hdb] at hg
      dsimp only at hg
      by_cases hpf : pathFilterOk p dd.path
      · rw [if_pos hpf] at hg
        injection hg with hg
        subst hg
        rw [if_neg]
        intro hcon
        apply habs pr hpr
        refine ⟨hpt, ?_⟩
        rw [← docById_docid hdb]
        exact hcon
      · rw [if_neg hpf] at hg; cases hg
  · rw [if_neg hpt] at hg; cases hg

theorem rowsForAux_sum (S : Store) (p : SearchParams) (t : String) (d : Nat)
    (f : Row → ℚ) :
    ∀ ps : List (String × Nat × Int), (postKeys ps).Nodup →
    (((ps.filterMap fun pr =>
        if pr.1 = t then
          match docById S pr.2.1 with
          | some dd =>
            if pathFilterOk p dd.path then
              some (⟨dd.docid, pr.2.2, dd.path, dd.len, dd.pathTokens⟩ : Row)
            else none
          | none => none
        else none).map (fun r => if r.docid = d then f r else 0)).sum) =
      (match ps.find? (fun pr => pr.1 = t ∧ pr.2.1 = d), docById S d with
      | some pr0, some doc =>
        if pathFilterOk p doc.path then
          f ⟨doc.docid, pr0.2.2, doc.path, doc.len, doc.pathTokens⟩
        else 0
      | _, _ => 0) := by
  intro ps hnd
  induction ps with
  | nil =>
    simp only [List.filterMap_nil, List.map_nil, List.sum_nil, List.find?_nil]
  | cons pr ps ih =>
    simp only [postKeys, List.map_cons, List.nodup_cons] at hnd
    obtain ⟨hnotin, hnd'⟩ := hnd
    have ih' := ih (by unfold postKeys; exact hnd')
    rw [List.filterMap_cons]
    by_cases hkey : pr.1 = t ∧ pr.2.1 = d
    · obtain ⟨hpt, hpd⟩ := hkey
      have hfind : List.find? (fun pr => decide (pr.1 = t ∧ pr.2.1 = d)) (pr :: ps) =
          some pr := by
        rw [List.find?_cons]
        simp [hpt, hpd]
      rw [hfind]
      have habs : ∀ pr' ∈ ps, ¬(pr'.1 = t ∧ pr'.2.1 = d) := by
        intro pr' hpr' hk
        apply hnotin
        have : (pr'.1, pr'.2.1) = (pr.1, pr.2.1) := by
          rw [hk.1, hk.2, hpt, hpd]
        rw [← this]
        exact List.mem_map.mpr ⟨pr', hpr', rfl⟩
      have hrest := rowsForAux_sum_zero S p t d f ps habs
      rw [if_pos hpt, hpd]
      cases hdb : docById S d with
      | none =>
        dsimp only
        rw [hrest]
      | some doc =>
        dsimp only
        by_cases hpf : pathFilterOk p doc.path
        · rw [if_pos hpf, if_pos hpf]
          simp only [List.map_cons, List.sum_cons]
          rw [if_pos (docById_docid hdb), hrest, add_zero]
        · rw [if_neg hpf, if_neg hpf]
          rw [hrest]
    · have hfind : List.find? (fun pr => decide (pr.1 = t ∧ pr.2.1 = d)) (pr :: ps) =
          List.find? (fun pr => decide (pr.1 = t ∧ pr.2.1 = d)) ps := by
        rw [List.find?_cons]
        simp [hkey]
      rw [hfind]
      by_cases hpt : pr.1 = t
      · have hpd : pr.2.1 ≠ d := fun hc => hkey ⟨hpt, hc⟩
        rw [if_pos hpt]
        cases hdb : docById S pr.2.1 with
        | none =>
          dsimp only
          exact ih'
        | some dd =>
          dsimp only
          by_cases hpf : pathFilterOk p dd.path
          · rw [if_pos hpf]
            simp only [List.map_cons, List.sum_cons]
            rw [if_neg (by rw [docById_docid hdb]; exact hpd), zero_add]
            exact ih'
          · rw [if_neg hpf]
            exact ih'
      · rw [if_neg hpt]
        exact ih'

theorem termContrib_closed (log : ℚ → ℚ) (S : Store) (p : SearchParams)
    (nDocs : Int) (avgdl : ℚ) (t : String) (d : Nat)
    (hnd : (postKeys S.postings).Nodup) :
    termContrib log S p nDocs avgdl t d =
      ((dfOf S t).bind fun df =>
        (docById S d).bind fun doc =>
          (tfOf S t d).map fun tf =>
            if pathFilterOk p doc.path then
              rowScore p avgdl (bm25_idf log nDocs df) t
                ⟨doc.docid, tf, doc.path, doc.len, doc.pathTokens⟩
            else 0).getD 0 := by
  unfold termContrib dfOf tfOf
  cases hfind : S.terms.find? (fun pr => pr.1 = t) with
  | none => simp
  | some pr =>
    simp only [Option.map_some', Option.getD_some, Option.some_bind]
    unfold rowsFor
    rw [rowsForAux_sum S p t d (rowScore p avgdl (bm25_idf log nDocs pr.2) t)
      S.postings hnd]
    cases hpost : S.postings.find? (fun q => q.1 = t ∧ q.2.1 = d) with
    | none => cases hdb : docById S d <;> rfl
    | some pr0 => cases hdb : docById S d <;> rfl

theorem termContrib_spec (log : ℚ → ℚ) (S : Store) (p : SearchParams)
    (t : String) (d : Nat) (hnd : (postKeys S.postings).Nodup) :
    termContrib log S p (metaTotalDocs S) (metaAvgdl S) t d =
      boostFactor S p t d * plainTermScore log S p t d := by
  rw [termContrib_closed log S p (metaTotalDocs S) (metaAvgdl S) t d hnd]
  unfold plainTermScore boostFactor bm25_idf rowScore
  cases hdf : dfOf S t with
  | none => cases hdb : docById S d <;> simp
  | some df =>
    cases hdb : docById S d with
    | none => simp
    | some doc =>
      cases htf : tfOf S t d with
      | none => simp
      | some tf =>
        simp only [Option.some_bind, Option.map_some', Option.getD_some]
        by_cases hpf : pathFilterOk p doc.path
        · by_cases hef : extsFilterOk p doc.path
          · rw [if_pos hpf, if_pos (show (pathFilterOk p doc.path ∧
              extsFilterOk p doc.path : Prop) from ⟨hpf, hef⟩), if_pos hef]
            by_cases hmem : t ∈ doc.pathTokens
            · rw [if_pos hmem, if_pos hmem]
              ring
            · rw [if_neg hmem, if_neg hmem]
              ring
          · rw [if_pos hpf, if_neg hef,
              if_neg (show ¬(pathFilterOk p doc.path ∧ extsFilterOk p doc.path : Prop)
                from fun hc => hef hc.2)]
            simp
        · rw [if_neg hpf,
            if_neg (show ¬(pathFilterOk p doc.path ∧ extsFilterOk p doc.path : Prop)
              from fun hc => hpf hc.1)]
          simp
theorem insertDesc_perm (x : Nat × ℚ) (l : List (Nat × ℚ)) :
    List.Perm (insertDesc x l) (x :: l) := by
  induction l with
  | nil => exact List.Perm.refl _
  | cons y ys ih =>
    unfold insertDesc
    by_cases h : x.2 ≥ y.2
    · rw [if_pos h]
    · rw [if_neg h]
      exact (ih.cons y).trans (List.Perm.swap x y ys)

theorem sortByScoreDesc_perm (l : List (Nat × ℚ)) :
    List.Perm (sortByScoreDesc l) l := by
  induction l with
  | nil => exact List.Perm.refl _
  | cons x xs ih =>
    exact (insertDesc_perm x (sortByScoreDesc xs)).trans (ih.cons x)

theorem valueOf_unique (sc : List (Nat × ℚ)) (hk : (sc.map Prod.fst).Nodup)
    (pr : Nat × ℚ) (hm : pr ∈ sc) : valueOf sc pr.1 = pr.2 := by
  induction sc with
  | nil => cases hm
  | cons hd tl ih =>
    simp only [List.map_cons, List.nodup_cons] at hk
    rcases List.mem_cons.mp hm with rfl | hm'
    · rw [valueOf_cons, if_pos rfl]
    · have hne : hd.1 ≠ pr.1 := by
        intro hc
        exact hk.1 (hc ▸ List.mem_map.mpr ⟨pr, hm', rfl⟩)
      rw [valueOf_cons, if_neg hne]
      exact ih hk.2 hm'

theorem search_hits_from_scores (log : ℚ → ℚ) (S : Store) (query : String)
    (p : SearchParams) :
    ∀ hit ∈ (search log S query p).2,
      ∃ pr ∈ searchScores log S query p, hit.score = pr.2 ∧ hit.docid = pr.1 := by
  intro hit hmem
  unfold search at hmem
  by_cases h0 : metaTotalDocs S ≤ 0
  · rw [if_pos h0] at hmem
    cases hmem
  · rw [if_neg h0] at hmem
    dsimp only at hmem
    by_cases hq : parseQTerms S query p.stem
        (if p.stopwords then DEFAULT_STOPWORDS else []) = []
    · rw [if_pos hq] at hmem
      cases hmem
    · rw [if_neg hq] at hmem
      by_cases hz : (scanTerms log S p (metaTotalDocs S) (metaAvgdl S)
          (parseQTerms S query p.stem
            (if p.stopwords then DEFAULT_STOPWORDS else []))).1 = []
      · rw [if_pos hz] at hmem
        cases hmem
      · rw [if_neg hz] at hmem
        dsimp only at hmem
        obtain ⟨pr, hpr, rfl⟩ := List.mem_map.mp hmem
        refine ⟨pr, ?_, rfl, rfl⟩
        have h1 : pr ∈ sortByScoreDesc (scanTerms log S p (metaTotalDocs S)
            (metaAvgdl S) (parseQTerms S query p.stem
              (if p.stopwords then DEFAULT_STOPWORDS else []))).1 :=
          List.take_subset p.k _ hpr
        exact (sortByScoreDesc_perm _).mem_iff.mp h1

theorem searchScores_value (log : ℚ → ℚ) (S : Store) (query : String)
    (p : SearchParams) (d : Nat) (hnd : (postKeys S.postings).Nodup) :
    valueOf (searchScores log S query p) d =
      ((parseQTerms S query p.stem (if p.stopwords then DEFAULT_STOPWORDS else [])).map
        (fun t => boostFactor S p t d * plainTermScore log S p t d)).sum := by
  unfold searchScores
  rw [scanTerms_value]
  refine congrArg List.sum ?_
  apply List.map_congr_left
  intro t _
  exact termContrib_spec log S p t d hnd

/-! ## Claim C1 — BM25 scoring formula -/

/-- C1 counterexample: the claim omits the path boost, so its score
formula (the plain sum of per-term BM25 contributions) disagrees with
the score `search` actually accumulates whenever a query term lies in a
matching doc's path tokens: for the one-doc store `boostStore` and the
query `"qq"` (whose term is a path token of the doc), the accumulated
score is `3/2 * 1/3 = 1/2`, but the claimed sum is `1/3`. -/
theorem c1_bm25_counterexample :
    valueOf (searchScores toyLog boostStore "qq" defaultParams) 1 ≠
      ((parseQTerms boostStore "qq" defaultParams.stem
          (if defaultParams.stopwords then DEFAULT_STOPWORDS else [])).map
        (fun t => plainTermScore toyLog boostStore defaultParams t 1)).sum := by
  have hparse : parseQTerms boostStore "qq" defaultParams.stem
      (if defaultParams.stopwords then DEFAULT_STOPWORDS else []) = ["qq"] := by
    decide
  have hplain : plainTermScore toyLog boostStore defaultParams "qq" 1 = 1/3 := by
    have hdf : dfOf boostStore "qq" = some 1 := by decide
    have hdb : docById boostStore 1 =
        some ⟨1, "qq.md", 10, 0, 0, "", ["qq", "md"]⟩ := by decide
    have htf : tfOf boostStore "qq" 1 = some 1 := by decide
    unfold plainTermScore
    rw [hdf, hdb, htf]
    simp only [Option.some_bind, Option.map_some', Option.getD_some]
    norm_num [pathFilterOk, extsFilterOk, defaultParams, metaTotalDocs, metaAvgdl,
      boostStore, toyLog]
  have hboost : boostFactor boostStore defaultParams "qq" 1 = 3/2 := by
    have hdb : docById boostStore 1 =
        some ⟨1, "qq.md", 10, 0, 0, "", ["qq", "md"]⟩ := by decide
    unfold boostFactor
    rw [hdb]
    norm_num [defaultParams]
  have hval : valueOf (searchScores toyLog boostStore "qq" defaultParams) 1 =
      boostFactor boostStore defaultParams "qq" 1 *
        plainTermScore toyLog boostStore defaultParams "qq" 1 := by
    rw [searchScores_value toyLog boostStore "qq" defaultParams 1 (by decide), hparse]
    simp
  rw [hval, hboost, hplain, hparse]
  simp only [List.map_cons, List.map_nil, List.sum_cons, List.sum_nil, add_zero]
  rw [hplain]
  norm_num

/-- C1 (amended): for every store whose postings have unique
`(term, docid)` keys (the table's primary key), every hit `search`
returns carries the accumulated `doc_scores` value of its docid, and
that accumulated score of any doc `d` is the sum, over the parsed query
terms, of the per-term BM25 contribution
`idf(t) * (tf * (k1+1)) / (tf + k1 * (1 - b + b * dl/avgdl))` with
`idf(t) = log((N - df(t) + 0.5)/(df(t) + 0.5) + 1)`, `N = total_docs`,
`dl` the doc's stored length defaulting to 1 when zero and `avgdl` read
from `meta` defaulting to 1 — each contribution additionally multiplied
by `path_boost` when the term occurs in the doc's stored path-token set
(the clause the original claim omitted; `plainTermScore` transcribes
the claim's formula and `boostFactor` the boost multiplier). -/
theorem c1_bm25_scoring (log : ℚ → ℚ) (S : Store) (query : String)
    (p : SearchParams) (hnd : (postKeys S.postings).Nodup) :
    (∀ hit ∈ (search log S query p).2,
        hit.score = valueOf (searchScores log S query p) hit.docid) ∧
    (∀ d : Nat,
        valueOf (searchScores log S query p) d =
          ((parseQTerms S query p.stem
              (if p.stopwords then DEFAULT_STOPWORDS else [])).map
            (fun t => boostFactor S p t d * plainTermScore log S p t d)).sum) := by
  constructor
  · intro hit hmem
    obtain ⟨pr, hpr, hs, hd⟩ := search_hits_from_scores log S query p hit hmem
    rw [hs, hd]
    exact (valueOf_unique _ (scanTerms_keys_nodup log S p (metaTotalDocs S)
      (metaAvgdl S) _) pr hpr).symm
  · intro d
    exact searchScores_value log S query p d hnd

/-- C1 witness: the hypothesis and both conjuncts instantiated at the
concrete `boostStore` and query `"qq"`. -/
theorem c1_bm25_scoring_witness :
    (postKeys boostStore.postings).Nodup ∧
    ((∀ hit ∈ (search toyLog boostStore "qq" defaultParams).2,
        hit.score = valueOf (searchScores toyLog boostStore "qq" defaultParams) hit.docid) ∧
     (∀ d : Nat,
        valueOf (searchScores toyLog boostStore "qq" defaultParams) d =
          ((parseQTerms boostStore "qq" defaultParams.stem
              (if defaultParams.stopwords then DEFAULT_STOPWORDS else [])).map
            (fun t => boostFactor boostStore defaultParams t d *
              plainTermScore toyLog boostStore defaultParams t d)).sum)) :=
  ⟨by decide, c1_bm25_scoring toyLog boostStore "qq" defaultParams (by decide)⟩

/-! ## Claim C7 — path boost applied once per contributing term -/

/-- C7: for every store with unique posting keys and every doc `d` of
the store, the score `search` accumulates for `d` is the sum over the
parsed query terms of that term's BM25 contribution, multiplied by
`path_boost` exactly when the term occurs in `d`'s stored path-token
set — i.e. the boost applies once per contributing term per doc, inside
the per-term summand, so a multi-term query accumulates one boost per
matching term rather than one per doc. -/
theorem c7_path_boost_per_term (log : ℚ → ℚ) (S : Store) (query : String)
    (p : SearchParams) (hnd : (postKeys S.postings).Nodup) (d : Nat) (doc : Doc)
    (hdb : docById S d = some doc) :
    valueOf (searchScores log S query p) d =
      ((parseQTerms S query p.stem (if p.stopwords then DEFAULT_STOPWORDS else [])).map
        (fun t =>
          if t ∈ doc.pathTokens then p.pathBoost * plainTermScore log S p t d
          else plainTermScore log S p t d)).sum := by
  rw [searchScores_value log S query p d hnd]
  refine congrArg List.sum ?_
  apply List.map_congr_left
  intro t _
  unfold boostFactor
  rw [hdb]
  simp only [Option.map_some', Option.getD_some]
  by_cases hmem : t ∈ doc.pathTokens
  · rw [if_pos hmem, if_pos hmem]
  · rw [if_neg hmem, if_neg hmem, one_mul]

/-- C7 witness: both hypotheses discharged at `boostStore` with the
two-term query `"qq md"` (both terms lie in the doc's path tokens, so
each summand carries its own boost). -/
theorem c7_path_boost_witness :
    (postKeys boostStore.postings).Nodup ∧
    docById boostStore 1 = some ⟨1, "qq.md", 10, 0, 0, "", ["qq", "md"]⟩ ∧
    valueOf (searchScores toyLog boostStore "qq md" defaultParams) 1 =
      ((parseQTerms boostStore "qq md" defaultParams.stem
          (if defaultParams.stopwords then DEFAULT_STOPWORDS else [])).map
        (fun t =>
          if t ∈ (["qq", "md"] : List String) then
            defaultParams.pathBoost * plainTermScore toyLog boostStore defaultParams t 1
          else plainTermScore toyLog boostStore defaultParams t 1)).sum :=
  ⟨by decide, by decide,
   c7_path_boost_per_term toyLog boostStore "qq md" defaultParams (by decide) 1
     ⟨1, "qq.md", 10, 0, 0, "", ["qq", "md"]⟩ (by decide)⟩

/-! ## Claim C6 — alternation inclusion -/

theorem isSpaceCh_not_word {c : Char} (h : isSpaceCh c = true) : isWordCh c = false := by
  unfold isSpaceCh at h
  simp only [Bool.or_eq_true, decide_eq_true_eq] at h
  rcases h with ((((h | h) | h) | h) | h) | h <;> subst h <;> decide

theorem wordRunsGo_nonword (ws : List Char) (hws : ∀ c ∈ ws, isWordCh c = false) :
    ∀ cur, wordRunsGo cur ws = wordRunsGo cur [] := by
  induction ws with
  | nil => intro cur; rfl
  | cons c ws ih =>
    intro cur
    have hc : isWordCh c = false := hws c (List.mem_cons_self c ws)
    have ih' := ih (fun c' hc' => hws c' (List.mem_cons_of_mem c hc'))
    show (if isWordCh c then _ else if cur = [] then wordRunsGo [] ws
          else cur.reverse :: wordRunsGo [] ws) = _
    rw [hc]
    by_cases hcur : cur = []
    · subst hcur
      simp only [if_neg (Bool.false_ne_true), if_pos rfl]
      rw [ih' []]
      rfl
    · simp only [if_neg (Bool.false_ne_true), if_neg hcur]
      rw [ih' []]
      show [cur.reverse] = wordRunsGo cur []
      unfold wordRunsGo
      rw [if_neg hcur]

theorem wordRunsGo_append_nonword (ws : List Char)
    (hws : ∀ c ∈ ws, isWordCh c = false) :
    ∀ (l : List Char) (cur : List Char),
      wordRunsGo cur (l ++ ws) = wordRunsGo cur l := by
  intro l
  induction l with
  | nil =>
    intro cur
    rw [List.nil_append]
    exact wordRunsGo_nonword ws hws cur
  | cons c l ih =>
    intro cur
    rw [List.cons_append]
    show (if isWordCh c then wordRunsGo (c :: cur) (l ++ ws)
          else if cur = [] then wordRunsGo [] (l ++ ws)
          else cur.reverse :: wordRunsGo [] (l ++ ws)) = _
    by_cases hc : isWordCh c
    · rw [if_pos hc, ih]
      show _ = (if isWordCh c then wordRunsGo (c :: cur) l else _)
      rw [if_pos hc]
    · rw [if_neg hc]
      by_cases hcur : cur = []
      · rw [if_pos hcur, ih]
        show _ = (if isWordCh c then _ else if cur = [] then wordRunsGo [] l else _)
        rw [if_neg hc, if_pos hcur]
      · rw [if_neg hcur, ih]
        show _ = (if isWordCh c then _ else if cur = [] then _
                  else cur.reverse :: wordRunsGo [] l)
        rw [if_neg hc, if_neg hcur]

theorem wordRunsGo_dropWhile_space (l : List Char) :
    wordRunsGo [] (l.dropWhile isSpaceCh) = wordRunsGo [] l := by
  induction l with
  | nil => rfl
  | cons c l ih =>
    by_cases hc : isSpaceCh c
    · rw [List.dropWhile_cons_of_pos hc, ih]
      have hw : isWordCh c = false := isSpaceCh_not_word hc
      show _ = (if isWordCh c then wordRunsGo [c] l
                else if ([] : List Char) = [] then wordRunsGo [] l
                else _)
      rw [hw]
      simp
    · rw [List.dropWhile_cons_of_neg hc]

theorem stripL_decomp (l : List Char) :
    ∃ ws, (∀ c ∈ ws, isSpaceCh c = true) ∧
      l.dropWhile isSpaceCh = stripL l ++ ws := by
  refine ⟨((l.dropWhile isSpaceCh).reverse.takeWhile isSpaceCh).reverse, ?_, ?_⟩
  · intro c hc
    rw [List.mem_reverse] at hc
    exact List.mem_takeWhile_imp hc
  · unfold stripL
    have h2 : l.dropWhile isSpaceCh =
        ((l.dropWhile isSpaceCh).reverse.takeWhile isSpaceCh ++
         (l.dropWhile isSpaceCh).reverse.dropWhile isSpaceCh).reverse := by
      rw [List.takeWhile_append_dropWhile, List.reverse_reverse]
    conv_lhs => rw [h2]
    rw [List.reverse_append]

theorem wordRuns_stripL (l : List Char) : wordRuns (stripL l) = wordRuns l := by
  unfold wordRuns
  refine congrArg _ ?_
  obtain ⟨ws, hws, hdecomp⟩ := stripL_decomp l
  have h1 : wordRunsGo [] l = wordRunsGo [] (l.dropWhile isSpaceCh) :=
    (wordRunsGo_dropWhile_space l).symm
  rw [h1, hdecomp,
    wordRunsGo_append_nonword ws (fun c hc => isSpaceCh_not_word (hws c hc))]

theorem tokenizeL_stripL (l : List Char) (stem : Bool) (sw : List String) :
    tokenizeL (stripL l) stem sw = tokenizeL l stem sw := by
  unfold tokenizeL
  rw [wordRuns_stripL]

theorem splitOnCharL_no_sep (sep : Char) (B : List Char) (hB : sep ∉ B) :
    splitOnCharL sep B = [B] := by
  induction B with
  | nil => rfl
  | cons c B ih =>
    have hc : c ≠ sep := fun h => hB (h ▸ List.mem_cons_self c B)
    have ih' := ih (fun h => hB (List.mem_cons_of_mem c h))
    simp only [splitOnCharL]
    rw [if_neg hc, ih']

theorem splitOnCharL_append (sep : Char) (A B : List Char) (hA : sep ∉ A) :
    splitOnCharL sep (A ++ sep :: B) = A :: splitOnCharL sep B := by
  induction A with
  | nil =>
    rw [List.nil_append]
    simp [splitOnCharL]
  | cons c A ih =>
    have hc : c ≠ sep := fun h => hA (h ▸ List.mem_cons_self c A)
    have ih' := ih (fun h => hA (List.mem_cons_of_mem c h))
    rw [List.cons_append]
    simp only [splitOnCharL]
    rw [if_neg hc, ih']

theorem mem_dedupKeepFirst (x : String) (l : List String) :
    x ∈ dedupKeepFirst l ↔ x ∈ l := by
  unfold dedupKeepFirst
  suffices h : ∀ acc, (x ∈ l.foldl (fun acc t => if t ∈ acc then acc else acc ++ [t]) acc
      ↔ x ∈ acc ∨ x ∈ l) by
    rw [h []]
    simp
  induction l with
  | nil => intro acc; simp
  | cons t l ih =>
    intro acc
    rw [List.foldl_cons]
    by_cases ht : t ∈ acc
    · rw [if_pos ht, ih]
      constructor
      · rintro (h | h)
        · exact Or.inl h
        · exact Or.inr (List.mem_cons_of_mem t h)
      · rintro (h | h)
        · exact Or.inl h
        · rcases List.mem_cons.mp h with rfl | h
          · exact Or.inl ht
          · exact Or.inr h
    · rw [if_neg ht, ih]
      simp only [List.mem_append, List.mem_singleton, List.mem_cons]
      tauto

theorem mem_foldl_grow (l : List (String × Int))
    (step : List String → String × Int → List String)
    (hgrow : ∀ acc pr, ∀ y ∈ acc, y ∈ step acc pr) (x : String) :
    ∀ base : List String, x ∈ base → x ∈ l.foldl step base := by
  induction l with
  | nil => intro base h; exact h
  | cons pr l ih =>
    intro base h
    rw [List.foldl_cons]
    exact ih _ (hgrow base pr x h)

theorem mem_foldl_append_base (alts : List String) (f : String → List String)
    (x : String) :
    ∀ base, x ∈ base → x ∈ alts.foldl (fun acc a => acc ++ f a) base := by
  induction alts with
  | nil => intro base h; exact h
  | cons b alts ih =>
    intro base h
    rw [List.foldl_cons]
    exact ih _ (List.mem_append_left _ h)

theorem mem_foldl_append (alts : List String) (f : String → List String)
    (x a : String) (ha : a ∈ alts) (hx : x ∈ f a) :
    ∀ base, x ∈ alts.foldl (fun acc a => acc ++ f a) base := by
  induction alts with
  | nil => cases ha
  | cons b alts ih =>
    intro base
    rw [List.foldl_cons]
    rcases List.mem_cons.mp ha with rfl | ha'
    · exact mem_foldl_append_base alts f x _ (List.mem_append_right _ hx)
    · exact ih ha' _

theorem tokenize_strip_eq (s : String) (stem : Bool) (sw : List String) :
    tokenize (stripStr s) stem sw = tokenize s stem sw := by
  show tokenizeL (stripL s.toList) stem sw = tokenizeL s.toList stem sw
  exact tokenizeL_stripL _ _ _

theorem mem_parseQTerms_alternation (S : Store) (A B : String) (stem : Bool)
    (sw : List String) (hA : '|' ∉ A.toList) (hB : '|' ∉ B.toList) (x : String)
    (hx : x ∈ tokenize A stem sw ∨ x ∈ tokenize B stem sw) :
    x ∈ parseQTerms S (A ++ "|" ++ B) stem sw := by
  have hquery : (A ++ "|" ++ B).toList = A.toList ++ '|' :: B.toList := by
    show (A ++ "|" ++ B).data = A.data ++ '|' :: B.data
    simp [String.data_append]
  have hpipe : '|' ∈ (A ++ "|" ++ B).toList := by
    rw [hquery]
    exact List.mem_append_right _ (List.mem_cons_self _ _)
  have hsplit : splitOnPipe (A ++ "|" ++ B) =
      [String.mk A.toList, String.mk B.toList] := by
    unfold splitOnPipe
    rw [hquery, splitOnCharL_append '|' A.toList B.toList hA,
      splitOnCharL_no_sep '|' B.toList hB]
    rfl
  unfold parseQTerms
  rw [if_pos hpipe]
  show x ∈ dedupKeepFirst _
  apply (mem_dedupKeepFirst x _).mpr
  apply mem_foldl_grow
  · intro acc pr y hy
    dsimp only
    split <;> split <;>
      first
      | exact List.mem_append_left _ hy
      | exact hy
  rcases hx with hxA | hxB
  · by_cases hsA : stripStr A = ""
    · exfalso
      rw [← tokenize_strip_eq A stem sw, hsA] at hxA
      cases hxA
    · refine mem_foldl_append _ _ x (stripStr A) ?_ ?_ []
      · rw [hsplit]
        apply List.mem_filter.mpr
        refine ⟨List.mem_cons_self _ _, ?_⟩
        exact decide_eq_true hsA
      · rw [tokenize_strip_eq]
        exact hxA
  · by_cases hsB : stripStr B = ""
    · exfalso
      rw [← tokenize_strip_eq B stem sw, hsB] at hxB
      cases hxB
    · refine mem_foldl_append _ _ x (stripStr B) ?_ ?_ []
      · rw [hsplit]
        apply List.mem_filter.mpr
        refine ⟨List.mem_cons_of_mem _ (List.mem_cons_self _ _), ?_⟩
        exact decide_eq_true hsB
      · rw [tokenize_strip_eq]
        exact hxB

theorem parseQTerms_no_pipe (S : Store) (query : String) (stem : Bool)
    (sw : List String) (h : '|' ∉ query.toList) :
    parseQTerms S query stem sw = tokenize query stem sw := by
  unfold parseQTerms
  rw [if_neg h]

/-- C6: for every store, parameters and pair of pipe-free query strings
`A` and `B`, every doc the scoring loop touches for `A` alone (and for
`B` alone) is also touched for the alternation query `A|B`, ignoring the
top-`k` truncation: the alternation parse tokenizes both trimmed
alternatives, so its term list contains every term of `A`'s (and `B`'s)
parse, and the touched-docid set is monotone in the term list. -/
theorem c6_alternation_inclusion (log : ℚ → ℚ) (S : Store) (p : SearchParams)
    (A B : String) (hA : '|' ∉ A.toList) (hB : '|' ∉ B.toList) :
    (∀ d ∈ searchHitDocids log S A p, d ∈ searchHitDocids log S (A ++ "|" ++ B) p) ∧
    (∀ d ∈ searchHitDocids log S B p, d ∈ searchHitDocids log S (A ++ "|" ++ B) p) := by
  constructor
  · intro d hd
    unfold searchHitDocids at hd ⊢
    by_cases h0 : metaTotalDocs S ≤ 0
    · rw [if_pos h0] at hd
      cases hd
    · rw [if_neg h0] at hd ⊢
      dsimp only at hd ⊢
      by_cases hq : parseQTerms S A p.stem
          (if p.stopwords then DEFAULT_STOPWORDS else []) = []
      · rw [if_pos hq] at hd
        cases hd
      · rw [if_neg hq] at hd
        obtain ⟨t, ht, hhit⟩ := (scanTerms_keys log S p (metaTotalDocs S)
          (metaAvgdl S) _ d).mp hd
        rw [parseQTerms_no_pipe S A p.stem _ hA] at ht
        have htAB : t ∈ parseQTerms S (A ++ "|" ++ B) p.stem
            (if p.stopwords then DEFAULT_STOPWORDS else []) :=
          mem_parseQTerms_alternation S A B p.stem _ hA hB t (Or.inl ht)
        rw [if_neg (List.ne_nil_of_mem htAB)]
        exact (scanTerms_keys log S p (metaTotalDocs S) (metaAvgdl S) _ d).mpr
          ⟨t, htAB, hhit⟩
  · intro d hd
    unfold searchHitDocids at hd ⊢
    by_cases h0 : metaTotalDocs S ≤ 0
    · rw [if_pos h0] at hd
      cases hd
    · rw [if_neg h0] at hd ⊢
      dsimp only at hd ⊢
      by_cases hq : parseQTerms S B p.stem
          (if p.stopwords then DEFAULT_STOPWORDS else []) = []
      · rw [if_pos hq] at hd
        cases hd
      · rw [if_neg hq] at hd
        obtain ⟨t, ht, hhit⟩ := (scanTerms_keys log S p (metaTotalDocs S)
          (metaAvgdl S) _ d).mp hd
        rw [parseQTerms_no_pipe S B p.stem _ hB] at ht
        have htAB : t ∈ parseQTerms S (A ++ "|" ++ B) p.stem
            (if p.stopwords then DEFAULT_STOPWORDS else []) :=
          mem_parseQTerms_alternation S A B p.stem _ hA hB t (Or.inr ht)
        rw [if_neg (List.ne_nil_of_mem htAB)]
        exact (scanTerms_keys log S p (metaTotalDocs S) (metaAvgdl S) _ d).mpr
          ⟨t, htAB, hhit⟩

/-- C6 witness: at `boostStore`, doc 1 is hit by `"qq"` and therefore
by `"qq|zz"`. -/
theorem c6_alternation_witness :
    ('|' ∉ "qq".toList) ∧ ('|' ∉ "zz".toList) ∧
    (1 ∈ searchHitDocids toyLog boostStore "qq" defaultParams) ∧
    ((∀ d ∈ searchHitDocids toyLog boostStore "qq" defaultParams,
        d ∈ searchHitDocids toyLog boostStore ("qq" ++ "|" ++ "zz") defaultParams) ∧
     (∀ d ∈ searchHitDocids toyLog boostStore "zz" defaultParams,
        d ∈ searchHitDocids toyLog boostStore ("qq" ++ "|" ++ "zz") defaultParams)) :=
  ⟨by decide, by decide, by decide,
   c6_alternation_inclusion toyLog boostStore defaultParams "qq" "zz"
     (by decide) (by decide)⟩

/-! ## Claim C8 — score monotonicity under higher term frequency -/
theorem sortDesc_head_of_max (l : List (Nat × ℚ)) (x : Nat × ℚ)
    (hk : (l.map Prod.fst).Nodup) (hx : x ∈ l)
    (hmax : ∀ y ∈ l, y.1 ≠ x.1 → y.2 < x.2) :
    (sortByScoreDesc l).head? = some x := by
  induction l with
  | nil => cases hx
  | cons a t ih =>
    simp only [List.map_cons, List.nodup_cons] at hk
    rcases List.mem_cons.mp hx with rfl | hx'
    · show (insertDesc x (sortByScoreDesc t)).head? = some x
      cases hs : sortByScoreDesc t with
      | nil => rfl
      | cons y ys =>
        have hy : y ∈ t := (sortByScoreDesc_perm t).mem_iff.mp
          (hs ▸ List.mem_cons_self y ys)
        have hyx : y.1 ≠ x.1 := by
          intro hc
          exact hk.1 (hc ▸ List.mem_map.mpr ⟨y, hy, rfl⟩)
        have hlt : y.2 < x.2 := hmax y (List.mem_cons_of_mem _ hy) hyx
        show (if x.2 ≥ y.2 then x :: y :: ys else y :: insertDesc x ys).head? = some x
        rw [if_pos (le_of_lt hlt)]
        rfl
    · have hhead := ih hk.2 hx'
        (fun y hy => hmax y (List.mem_cons_of_mem _ hy))
      show (insertDesc a (sortByScoreDesc t)).head? = some x
      cases hs : sortByScoreDesc t with
      | nil =>
        rw [hs] at hhead
        cases hhead
      | cons y ys =>
        rw [hs] at hhead
        have hyx : y = x := by
          rw [List.head?_cons] at hhead
          injection hhead
        subst hyx
        have hax : a.1 ≠ y.1 := by
          intro hc
          exact hk.1 (hc ▸ List.mem_map.mpr ⟨y, hx', rfl⟩)
        have halt : a.2 < y.2 := hmax a (List.mem_cons_self a t) hax
        show (if a.2 ≥ y.2 then a :: y :: ys else y :: insertDesc a ys).head? = some y
        rw [if_neg (not_le.mpr halt)]
        rfl

theorem head?_take {α : Type} (k : Nat) (l : List α) (hk : 1 ≤ k) :
    (l.take k).head? = l.head? := by
  cases l with
  | nil => simp
  | cons a t =>
    cases k with
    | zero => exact absurd hk (by decide)
    | succ m => rfl

theorem tfOf_eq_of_mem (S : Store) (t : String) (d : Nat) (pr : String × Nat × Int)
    (hnd : (postKeys S.postings).Nodup) (hpr : pr ∈ S.postings) (h1 : pr.1 = t)
    (h2 : pr.2.1 = d) : tfOf S t d = some pr.2.2 := by
  unfold tfOf
  have hex : ∃ q, S.postings.find? (fun q => q.1 = t ∧ q.2.1 = d) = some q := by
    rw [← Option.isSome_iff_exists, List.find?_isSome]
    exact ⟨pr, hpr, by simp [h1, h2]⟩
  obtain ⟨qq, hq⟩ := hex
  have hqm := List.mem_of_find?_eq_some hq
  have hqp := List.find?_some hq
  simp only [decide_eq_true_eq] at hqp
  have heq : qq = pr := by
    apply List.inj_on_of_nodup_map hnd hqm hpr
    show (qq.1, qq.2.1) = (pr.1, pr.2.1)
    rw [hqp.1, hqp.2, h1, h2]
  rw [hq, heq]
  rfl

theorem rowsFor_mem_posting (S : Store) (p : SearchParams) (t : String) (r : Row)
    (hr : r ∈ rowsFor S p t) :
    ∃ pr ∈ S.postings, pr.1 = t ∧ pr.2.1 = r.docid ∧ pr.2.2 = r.tf ∧
      ∃ dd, docById S r.docid = some dd ∧ r.path = dd.path ∧ r.len = dd.len ∧
        r.pathTokens = dd.pathTokens := by
  unfold rowsFor at hr
  obtain ⟨pr, hpr, hg⟩ := List.mem_filterMap.mp hr
  by_cases hpt : pr.1 = t
  · rw [if_pos hpt] at hg
    cases hdb : docById S pr.2.1 with
    | none => rw [hdb] at hg; cases hg
    | some dd =>
      rw [hdb] at hg
      dsimp only at hg
      by_cases hpfc : pathFilterOk p dd.path
      · rw [if_pos hpfc] at hg
        injection hg with hg
        subst hg
        refine ⟨pr, hpr, hpt, (docById_docid hdb).symm, rfl, dd, ?_, rfl, rfl, rfl⟩
        show docById S dd.docid = some dd
        rw [docById_docid hdb]
        exact hdb
      · rw [if_neg hpfc] at hg; cases hg
  · rw [if_neg hpt] at hg; cases hg

theorem bm25_idf_pos (log : ℚ → ℚ) (hlog : ∀ x : ℚ, 1 < x → 0 < log x)
    (N df : Int) (h0 : 0 ≤ df) (hdN : df ≤ N) : 0 < bm25_idf log N df := by
  apply hlog
  have hN : (df : ℚ) ≤ (N : ℚ) := by exact_mod_cast hdN
  have h0' : (0 : ℚ) ≤ (df : ℚ) := by exact_mod_cast h0
  have hnum : 0 < (N : ℚ) - (df : ℚ) + 1/2 := by linarith
  have hden : 0 < (df : ℚ) + 1/2 := by linarith
  have := div_pos hnum hden
  unfold bm25_idf at *
  linarith

theorem bm25_K_pos (k1 b dl avgdl : ℚ) (hk1 : 0 < k1) (hb0 : 0 ≤ b) (hb1 : b ≤ 1)
    (hdl : 0 < dl) (havg : 0 < avgdl) : 0 < k1 * (1 - b + b * (dl / avgdl)) := by
  apply mul_pos hk1
  have hda : 0 < dl / avgdl := div_pos hdl havg
  by_cases hq : 1 ≤ dl / avgdl
  · nlinarith
  · push_neg at hq
    nlinarith [mul_nonneg (sub_nonneg.mpr hb1) (sub_nonneg.mpr (le_of_lt hda))]

theorem bm25_strict_mono (idf K k1 a c : ℚ)
    (hidf : 0 < idf) (hK : 0 < K) (hk1 : 0 < k1) (ha : 1 ≤ a) (hac : a < c) :
    idf * (a * (k1 + 1)) / (a + K) < idf * (c * (k1 + 1)) / (c + K) := by
  have hden1 : 0 < a + K := by linarith
  have hden2 : 0 < c + K := by linarith
  rw [div_lt_div_iff₀ hden1 hden2]
  have h1 : 0 < k1 + 1 := by linarith
  nlinarith [mul_pos (mul_pos hidf h1) hK,
    mul_pos (sub_pos.mpr hac) (mul_pos (mul_pos hidf h1) hK)]

/-- C8 (amended): adding a document `n` that contains the single query
term `t` strictly more often than every other matching document, with
equal stored length, makes `n` rank first for `t` — provided `t` occurs
in no stored document's path-token set (otherwise the 1.5x path boost of
engine.py lines 806-807 can override the tf advantage, as
`c8_counterexample` shows). -/
theorem c8_rank_first (log : ℚ → ℚ) (S : Store) (q : String) (p : SearchParams)
    (t : String) (n : Doc) (tfn df : Int)
    (hlog : ∀ x : ℚ, 1 < x → 0 < log x)
    (hparse : parseQTerms S q p.stem
      (if p.stopwords then DEFAULT_STOPWORDS else []) = [t])
    (hnd : (postKeys S.postings).Nodup)
    (hN : 0 < metaTotalDocs S)
    (hkk : 1 ≤ p.k)
    (hk1 : 0 < p.k1) (hb0 : 0 ≤ p.b) (hb1 : p.b ≤ 1)
    (hpf : p.pathFilter = none) (hef : p.extsFilter = none)
    (havg : 0 ≤ S.meta.avgdl.getD 0)
    (hdf : dfOf S t = some df) (hdf0 : 0 ≤ df) (hdfN : df ≤ metaTotalDocs S)
    (hn : docById S n.docid = some n)
    (hnpost : (t, n.docid, tfn) ∈ S.postings)
    (hlen : 0 ≤ n.len)
    (hothers : ∀ pr ∈ S.postings, pr.1 = t → pr.2.1 ≠ n.docid →
      1 ≤ pr.2.2 ∧ pr.2.2 < tfn ∧
        ∀ dd, docById S pr.2.1 = some dd → dd.len = n.len)
    (hboost : ∀ i dd, docById S i = some dd → t ∉ dd.pathTokens) :
    ((search log S q p).2.head?).map (fun h => h.docid) = some n.docid := by
  have hpfok : ∀ path, pathFilterOk p path = true := by
    intro path
    unfold pathFilterOk
    rw [hpf]
  have hefok : ∀ path, extsFilterOk p path = true := by
    intro path
    unfold extsFilterOk
    rw [hef]
  have havgpos : 0 < metaAvgdl S := by
    unfold metaAvgdl
    by_cases hz : S.meta.avgdl.getD 0 = 0
    · rw [if_pos hz]
      norm_num
    · rw [if_neg hz]
      exact lt_of_le_of_ne havg (Ne.symm hz)
  have hdlpos : (0 : ℚ) < (if n.len = 0 then 1 else (n.len : ℚ)) := by
    by_cases hz : n.len = 0
    · rw [if_pos hz]
      norm_num
    · rw [if_neg hz]
      have : 0 < n.len := lt_of_le_of_ne hlen (Ne.symm hz)
      exact_mod_cast this
  -- closed form of the accumulated score of any doc holding a t-posting
  have hscore : ∀ d dd (tf : Int), docById S d = some dd → tfOf S t d = some tf →
      valueOf (searchScores log S q p) d =
        bm25_idf log (metaTotalDocs S) df * ((tf : ℚ) * (p.k1 + 1)) /
          ((tf : ℚ) + p.k1 * (1 - p.b + p.b *
            ((if dd.len = 0 then 1 else (dd.len : ℚ)) / metaAvgdl S))) := by
    intro d dd tf hdb htf
    rw [searchScores_value log S q p d hnd, hparse]
    simp only [List.map_cons, List.map_nil, List.sum_cons, List.sum_nil, add_zero]
    have hbf : boostFactor S p t d = 1 := by
      unfold boostFactor
      rw [hdb]
      simp only [Option.map_some', Option.getD_some]
      rw [if_neg (hboost d dd hdb)]
    rw [hbf, one_mul]
    unfold plainTermScore
    rw [hdf, hdb, htf]
    simp only [Option.some_bind, Option.map_some', Option.getD_some]
    rw [if_pos ⟨hpfok dd.path, hefok dd.path⟩]
    rfl
  -- the new doc's accumulated score
  have htfn : tfOf S t n.docid = some tfn :=
    tfOf_eq_of_mem S t n.docid (t, n.docid, tfn) hnd hnpost rfl rfl
  have hterm : (S.terms.find? (fun pr => pr.1 = t)).isSome := by
    unfold dfOf at hdf
    cases hfind : S.terms.find? (fun pr => pr.1 = t) with
    | none => rw [hfind] at hdf; cases hdf
    | some pr => rfl
  -- n's docid is a key of the accumulated scores
  have hnkey : n.docid ∈ (searchScores log S q p).map Prod.fst := by
    unfold searchScores
    dsimp only
    rw [hparse]
    apply (scanTerms_keys log S p (metaTotalDocs S) (metaAvgdl S) [t] n.docid).mpr
    refine ⟨t, List.mem_cons_self t [], hterm, ?_⟩
    refine ⟨⟨n.docid, tfn, n.path, n.len, n.pathTokens⟩, ?_, rfl, hefok _⟩
    unfold rowsFor
    apply List.mem_filterMap.mpr
    refine ⟨(t, n.docid, tfn), hnpost, ?_⟩
    rw [if_pos rfl]
    show (match docById S n.docid with
      | some dd => if pathFilterOk p dd.path then
          some (⟨dd.docid, tfn, dd.path, dd.len, dd.pathTokens⟩ : Row) else none
      | none => none) = _
    rw [hn]
    dsimp only
    rw [if_pos (hpfok n.path), docById_docid hn]
  -- every other key's score is strictly below n's
  have hkeysnd : ((searchScores log S q p).map Prod.fst).Nodup := by
    unfold searchScores
    exact scanTerms_keys_nodup log S p (metaTotalDocs S) (metaAvgdl S) _
  have hvn := hscore n.docid n tfn hn htfn
  have hmax : ∀ y ∈ searchScores log S q p, y.1 ≠ n.docid →
      y.2 < valueOf (searchScores log S q p) n.docid := by
    intro y hy hyne
    have hykey : y.1 ∈ (searchScores log S q p).map Prod.fst :=
      List.mem_map.mpr ⟨y, hy, rfl⟩
    have hyv : valueOf (searchScores log S q p) y.1 = y.2 :=
      valueOf_unique _ hkeysnd y hy
    -- extract y's unique t-posting
    have hyhit : ∃ tt ∈ [t], rowHit S p tt y.1 := by
      apply (scanTerms_keys log S p (metaTotalDocs S) (metaAvgdl S) [t] y.1).mp
      unfold searchScores at hykey
      dsimp only at hykey
      rw [hparse] at hykey
      exact hykey
    obtain ⟨tt, htt, _, r, hr, hrd, _⟩ := hyhit
    have htteq : tt = t := by
      rcases List.mem_cons.mp htt with h | h
      · exact h
      · cases h
    rw [htteq] at hr
    obtain ⟨pr, hprmem, hpr1, hpr2, hpr3, dd, hdd, _, hrlen, _⟩ :=
      rowsFor_mem_posting S p t r hr
    rw [hrd] at hdd
    have htfy : tfOf S t y.1 = some pr.2.2 :=
      tfOf_eq_of_mem S t y.1 pr hnd hprmem hpr1 (hrd ▸ hpr2)
    obtain ⟨hge1, hlt, hlens⟩ := hothers pr hprmem hpr1 (by rw [hpr2, hrd]; exact hyne)
    have hddlen : dd.len = n.len := hlens dd (by rw [hpr2, hrd]; exact hdd)
    have hyscore := hscore y.1 dd pr.2.2 hdd htfy
    rw [← hyv, hyscore, hvn, hddlen]
    exact bm25_strict_mono _ _ p.k1 _ _
      (bm25_idf_pos log hlog (metaTotalDocs S) df hdf0 hdfN)
      (bm25_K_pos p.k1 p.b _ _ hk1 hb0 hb1 hdlpos havgpos)
      hk1 (by exact_mod_cast hge1) (by exact_mod_cast hlt)
  -- the pair at n's key
  have hxmem : (n.docid, valueOf (searchScores log S q p) n.docid) ∈
      searchScores log S q p := by
    obtain ⟨pr, hpr, hfst⟩ := List.mem_map.mp hnkey
    have := valueOf_unique _ hkeysnd pr hpr
    have hpr' : pr = (n.docid, valueOf (searchScores log S q p) n.docid) := by
      ext
      · exact hfst
      · rw [← this, hfst]
    rw [← hpr']
    exact hpr
  have hhead : (sortByScoreDesc (searchScores log S q p)).head? =
      some (n.docid, valueOf (searchScores log S q p) n.docid) :=
    sortDesc_head_of_max _ _ hkeysnd hxmem (fun y hy hne => hmax y hy hne)
  -- unfold search
  unfold search
  rw [if_neg (not_le.mpr hN)]
  dsimp only
  rw [hparse]
  rw [if_neg (List.cons_ne_nil t [])]
  have hscores_ne : (scanTerms log S p (metaTotalDocs S) (metaAvgdl S)
      (parseQTerms S q p.stem (if p.stopwords then DEFAULT_STOPWORDS else []))).1 ≠ [] := by
    rw [hparse]
    intro hc
    unfold searchScores at hnkey
    dsimp only at hnkey
    rw [hparse] at hnkey
    rw [hc] at hnkey
    cases hnkey
  rw [hparse] at hscores_ne
  rw [if_neg hscores_ne]
  dsimp only
  rw [List.head?_map, head?_take p.k _ hkk]
  have hsame : (scanTerms log S p (metaTotalDocs S) (metaAvgdl S) [t]).1 =
      searchScores log S q p := by
    unfold searchScores
    dsimp only
    rw [hparse]
  rw [hsame, hhead]
  rfl
/-- C8 witness: on `monoStore`, doc 2 (tf 3 > tf 1, equal length 10)
ranks first for query "qq". -/
theorem c8_rank_first_witness :
    parseQTerms monoStore "qq" defaultParams.stem
      (if defaultParams.stopwords then DEFAULT_STOPWORDS else []) = ["qq"] ∧
    ((search toyLog monoStore "qq" defaultParams).2.head?).map
      (fun h => h.docid) = some 2 := by
  refine ⟨by decide, ?_⟩
  have h := c8_rank_first toyLog monoStore "qq" defaultParams "qq"
    ⟨2, "bb.md", 10, 0, 0, "", ["bb", "md"]⟩ 3 2
    (fun x hx => by unfold toyLog; linarith)
    (by decide)
    (by decide)
    (by decide)
    (by decide)
    (by norm_num [defaultParams])
    (by norm_num [defaultParams])
    (by norm_num [defaultParams])
    rfl
    rfl
    (by norm_num [monoStore])
    (by decide)
    (by decide)
    (by decide)
    (by decide)
    (by decide)
    (by decide)
    ?_
    ?_
  · exact h
  · intro pr hpr hp1 hp2
    rcases List.mem_cons.mp hpr with rfl | hpr2
    · refine ⟨by decide, by decide, ?_⟩
      intro dd hdd
      have hc : docById monoStore 1 =
          some ⟨1, "aa.md", 10, 0, 0, "", ["aa", "md"]⟩ := by decide
      rw [hc] at hdd
      injection hdd with hdd
      rw [← hdd]
    · rcases List.mem_cons.mp hpr2 with rfl | hpr3
      · exact absurd rfl hp2
      · cases hpr3
  · intro i dd hdd
    have hm : dd ∈ monoStore.docs := by
      unfold docById at hdd
      exact List.mem_of_find?_eq_some hdd
    rcases List.mem_cons.mp hm with rfl | hm2
    · decide
    · rcases List.mem_cons.mp hm2 with rfl | hm3
      · decide
      · cases hm3

theorem scores_eq_pairs₂ (sc : List (Nat × ℚ)) (a b : Nat) (hab : a ≠ b)
    (h : sc.map Prod.fst = [a, b]) :
    sc = [(a, valueOf sc a), (b, valueOf sc b)] := by
  match sc, h with
  | [(a', x), (b', y)], h =>
    simp only [List.map_cons, List.map_nil, List.cons.injEq, and_true] at h
    obtain ⟨rfl, rfl⟩ := h
    rw [valueOf_cons, if_pos rfl, valueOf_cons, if_neg hab, valueOf_cons, if_pos rfl]

/-- C8 counterexample: `c8Store` indexes `qq.md` (one "qq") and then
re-indexes after adding `new.md` with two "qq"s and equal tokenized
length 10; yet doc 1 ranks first for query "qq", because "qq" is among
`qq.md`'s path tokens and the 1.5x path boost (3/2 * 1/5 = 3/10) beats
the higher-tf score 11/40. The claim as stated is false. -/
theorem c8_counterexample :
    tfOf c8Store "qq" 2 = some 2 ∧ tfOf c8Store "qq" 1 = some 1 ∧
    docById c8Store 1 = some ⟨1, "qq.md", 10, 1, 10, "h", ["qq", "md"]⟩ ∧
    docById c8Store 2 = some ⟨2, "new.md", 10, 2, 11, "h", ["new", "md"]⟩ ∧
    ((search toyLog c8Store "qq" defaultParams).2.head?).map
      (fun h => h.docid) = some 1 := by
  have hnd : (postKeys c8Store.postings).Nodup := by decide
  have hparse : parseQTerms c8Store "qq" defaultParams.stem
      (if defaultParams.stopwords then DEFAULT_STOPWORDS else []) = ["qq"] := by decide
  have hN : metaTotalDocs c8Store = 2 := by decide
  have hd1 : docById c8Store 1 =
      some ⟨1, "qq.md", 10, 1, 10, "h", ["qq", "md"]⟩ := by decide
  have hd2 : docById c8Store 2 =
      some ⟨2, "new.md", 10, 2, 11, "h", ["new", "md"]⟩ := by decide
  have hdf : dfOf c8Store "qq" = some 2 := by decide
  have htf1 : tfOf c8Store "qq" 1 = some 1 := by decide
  have htf2 : tfOf c8Store "qq" 2 = some 2 := by decide
  have havgdl : metaAvgdl c8Store = 10 := by
    have h1 : c8Store.meta.avgdl = some (docLenMeta c8Store.docs).2 := rfl
    have hdocs : c8Store.docs =
        [⟨1, "qq.md", 10, 1, 10, "h", ["qq", "md"]⟩,
         ⟨2, "new.md", 10, 2, 11, "h", ["new", "md"]⟩] := by decide
    unfold metaAvgdl
    rw [h1, hdocs]
    norm_num [docLenMeta]
  have hs1 : valueOf (searchScores toyLog c8Store "qq" defaultParams) 1 = 3/10 := by
    rw [searchScores_value toyLog c8Store "qq" defaultParams 1 hnd, hparse]
    simp only [List.map_cons, List.map_nil, List.sum_cons, List.sum_nil, add_zero]
    have hb : boostFactor c8Store defaultParams "qq" 1 = 3/2 := by
      unfold boostFactor
      rw [hd1]
      norm_num [defaultParams]
    have hp : plainTermScore toyLog c8Store defaultParams "qq" 1 = 1/5 := by
      unfold plainTermScore
      rw [hdf, hd1, htf1]
      simp only [Option.some_bind, Option.map_some', Option.getD_some]
      rw [if_pos (show (pathFilterOk defaultParams "qq.md" ∧
        extsFilterOk defaultParams "qq.md" : Prop) from by decide)]
      rw [hN, havgdl]
      norm_num [toyLog, defaultParams]
    rw [hb, hp]
    norm_num
  have hs2 : valueOf (searchScores toyLog c8Store "qq" defaultParams) 2 = 11/40 := by
    rw [searchScores_value toyLog c8Store "qq" defaultParams 2 hnd, hparse]
    simp only [List.map_cons, List.map_nil, List.sum_cons, List.sum_nil, add_zero]
    have hb : boostFactor c8Store defaultParams "qq" 2 = 1 := by
      unfold boostFactor
      rw [hd2]
      norm_num [defaultParams]
      exact ⟨by decide, by decide⟩
    have hp : plainTermScore toyLog c8Store defaultParams "qq" 2 = 11/40 := by
      unfold plainTermScore
      rw [hdf, hd2, htf2]
      simp only [Option.some_bind, Option.map_some', Option.getD_some]
      rw [if_pos (show (pathFilterOk defaultParams "new.md" ∧
        extsFilterOk defaultParams "new.md" : Prop) from by decide)]
      rw [hN, havgdl]
      norm_num [toyLog, defaultParams]
    rw [hb, hp]
    norm_num
  have hkeys : (searchScores toyLog c8Store "qq" defaultParams).map Prod.fst =
      [1, 2] := by decide
  have hsc : searchScores toyLog c8Store "qq" defaultParams =
      [(1, 3/10), (2, 11/40)] := by
    have := scores_eq_pairs₂ (searchScores toyLog c8Store "qq" defaultParams) 1 2
      (by decide) hkeys
    rw [hs1, hs2] at this
    exact this
  refine ⟨htf2, htf1, hd1, hd2, ?_⟩
  unfold search
  rw [if_neg (show ¬ metaTotalDocs c8Store ≤ 0 from by rw [hN]; decide)]
  dsimp only
  rw [hparse]
  rw [if_neg (List.cons_ne_nil "qq" [])]
  have hsame : (scanTerms toyLog c8Store defaultParams (metaTotalDocs c8Store)
      (metaAvgdl c8Store) ["qq"]).1 = [(1, 3/10), (2, 11/40)] := by
    rw [← hsc]
    unfold searchScores
    dsimp only
    rw [hparse]
  rw [hsame]
  rw [if_neg (show ([(1, (3:ℚ)/10), (2, (11:ℚ)/40)] : List (Nat × ℚ)) ≠ [] from by simp)]
  dsimp only
  have hsort : sortByScoreDesc [(1, (3:ℚ)/10), (2, (11:ℚ)/40)] =
      [(1, (3:ℚ)/10), (2, (11:ℚ)/40)] := by
    show insertDesc (1, (3:ℚ)/10) (insertDesc (2, (11:ℚ)/40) []) = _
    show insertDesc (1, (3:ℚ)/10) [(2, (11:ℚ)/40)] = _
    show (if (3:ℚ)/10 ≥ (11:ℚ)/40 then _ else _) = _
    rw [if_pos (by norm_num)]
  rw [hsort]
  rfl

/-! ## Claim C5 — idempotent re-indexing -/

theorem planOf_closed (docs : List Doc) (sig : String → Option (Int × Int))
    (rels : List String) :
    planOf docs rels sig true =
      (rels.filter (relChanged docs sig),
       (rels.filter (relUnchanged docs sig)).length) := by
  have haux : ∀ (rs : List String) (l : List String) (n : Nat),
      rs.foldl
        (fun acc rel =>
          match sig rel with
          | none => acc
          | some (m, s) =>
            match lookupDoc docs rel with
            | some ex =>
              if ex.mtime = m ∧ ex.size = s then (acc.1, acc.2 + 1)
              else (acc.1 ++ [rel], acc.2)
            | none => (acc.1 ++ [rel], acc.2))
        (l, n) =
      (l ++ rs.filter (relChanged docs sig),
       n + (rs.filter (relUnchanged docs sig)).length) := by
    intro rs
    induction rs with
    | nil => intro l n; simp
    | cons r rs ih =>
      intro l n
      rw [List.foldl_cons]
      cases hs : sig r with
      | none =>
        dsimp only
        rw [ih l n]
        simp [List.filter_cons, relChanged, relUnchanged, hs]
      | some p =>
        obtain ⟨m, s⟩ := p
        dsimp only
        cases hl : lookupDoc docs r with
        | none =>
          dsimp only
          rw [ih (l ++ [r]) n]
          simp [List.filter_cons, relChanged, relUnchanged, hs, hl]
        | some ex =>
          dsimp only
          by_cases hc : ex.mtime = m ∧ ex.size = s
          · rw [if_pos hc, ih l (n + 1)]
            simp only [List.filter_cons, relChanged, relUnchanged, hs, hl,
              if_pos hc]
            simp [Nat.add_comm, Nat.add_assoc, Nat.add_left_comm]
          · rw [if_neg hc, ih (l ++ [r]) n]
            simp [List.filter_cons, relChanged, relUnchanged, hs, hl, if_neg hc]
  unfold planOf
  rw [if_pos rfl]
  rw [haux rels [] 0]
  simp

theorem find?_ext {α : Type} (l : List α) (p q : α → Bool)
    (h : ∀ a ∈ l, p a = q a) : l.find? p = l.find? q := by
  induction l with
  | nil => rfl
  | cons a t ih =>
    have ha := h a (List.mem_cons_self a t)
    rw [List.find?_cons, List.find?_cons, ha]
    cases q a with
    | true => rfl
    | false => exact ih (fun x hx => h x (List.mem_cons_of_mem a hx))

theorem find?_append_right {α : Type} (l₁ l₂ : List α) (p : α → Bool)
    (h : l₁.find? p = none) : (l₁ ++ l₂).find? p = l₂.find? p := by
  induction l₁ with
  | nil => rfl
  | cons a t ih =>
    rw [List.find?_cons] at h
    rw [List.cons_append, List.find?_cons]
    cases hp : p a with
    | true => rw [hp] at h; exact absurd h (by simp)
    | false => rw [hp] at h; exact ih h

theorem find?_filter_of_imp {α : Type} (l : List α) (p q : α → Bool)
    (h : ∀ x ∈ l, p x = true → q x = true) :
    (l.filter q).find? p = l.find? p := by
  induction l with
  | nil => rfl
  | cons a t ih =>
    have ih' := ih (fun x hx => h x (List.mem_cons_of_mem a hx))
    cases hq : q a with
    | true =>
      rw [List.filter_cons_of_pos hq, List.find?_cons, List.find?_cons]
      cases p a with
      | true => rfl
      | false => exact ih'
    | false =>
      rw [List.filter_cons_of_neg (by simp [hq])]
      rw [List.find?_cons]
      cases hp : p a with
      | true =>
        exact absurd (h a (List.mem_cons_self a t) hp) (by simp [hq])
      | false => exact ih'

theorem find?_append_one {α : Type} (l : List α) (p : α → Bool) (a : α)
    (ha : p a = false) : (l ++ [a]).find? p = l.find? p := by
  induction l with
  | nil =>
    rw [List.nil_append, List.find?_cons, ha, List.find?_nil]
  | cons x t ih =>
    rw [List.cons_append, List.find?_cons, List.find?_cons]
    cases p x with
    | true => rfl
    | false => exact ih

theorem lookupDoc_upsert_self (docs : List Doc) (rel : String)
    (len m s : Int) (sh : String) (tk : List String) :
    ∃ ex, lookupDoc (upsertDoc docs rel len m s sh tk) rel = some ex ∧
      ex.mtime = m ∧ ex.size = s := by
  unfold upsertDoc
  by_cases hany : docs.any (fun d => d.path = rel)
  · rw [if_pos hany]
    obtain ⟨d0, hd0, hp0⟩ := List.any_eq_true.mp hany
    have hfind : docs.find? (fun d => d.path = rel) ≠ none := by
      rw [ne_eq, List.find?_eq_none]
      push_neg
      exact ⟨d0, hd0, hp0⟩
    obtain ⟨e0, he0⟩ := Option.ne_none_iff_exists'.mp hfind
    have hpe0 : e0.path = rel := by
      have := List.find?_some he0
      exact of_decide_eq_true this
    unfold lookupDoc
    rw [List.find?_map]
    have hcomp : docs.find?
        ((fun d => decide (d.path = rel)) ∘
          (fun d => if d.path = rel then
            { d with len := len, mtime := m, size := s, sha1 := sh,
                     pathTokens := tk } else d)) =
        docs.find? (fun d => decide (d.path = rel)) := by
      apply find?_ext
      intro a _
      by_cases hpa : a.path = rel
      · simp [Function.comp, hpa]
      · simp [Function.comp, hpa]
    rw [hcomp, he0]
    refine ⟨_, rfl, ?_, ?_⟩ <;> simp [hpe0]
  · rw [if_neg hany]
    have hnone : docs.find? (fun d => decide (d.path = rel)) = none := by
      rw [List.find?_eq_none]
      intro x hx hc
      exact hany (List.any_eq_true.mpr ⟨x, hx, hc⟩)
    unfold lookupDoc
    rw [find?_append_right _ _ _ hnone, List.find?_cons]
    have hpa : decide (({ docid := newDocid docs, path := rel, len := len, mtime := m, size := s, sha1 := sh, pathTokens := tk } : Doc).path = rel) = true := by simp
    rw [hpa]
    exact ⟨_, rfl, rfl, rfl⟩

theorem lookupDoc_upsert_other (docs : List Doc) (rel rel' : String)
    (len m s : Int) (sh : String) (tk : List String) (hne : rel' ≠ rel) :
    lookupDoc (upsertDoc docs rel len m s sh tk) rel' = lookupDoc docs rel' := by
  unfold upsertDoc lookupDoc
  by_cases hany : docs.any (fun d => d.path = rel)
  · rw [if_pos hany, List.find?_map]
    have hcomp : docs.find?
        ((fun d => decide (d.path = rel')) ∘
          (fun d => if d.path = rel then
            { d with len := len, mtime := m, size := s, sha1 := sh,
                     pathTokens := tk } else d)) =
        docs.find? (fun d => decide (d.path = rel')) := by
      apply find?_ext
      intro a _
      by_cases hpa : a.path = rel
      · simp [Function.comp, hpa, hne.symm]
      · simp [Function.comp, hpa]
    rw [hcomp]
    cases hf : docs.find? (fun d => decide (d.path = rel')) with
    | none => rfl
    | some e0 =>
      have hpe0 : e0.path = rel' := by
        have := List.find?_some hf
        exact of_decide_eq_true this
      rw [Option.map_some']
      rw [if_neg (by rw [hpe0]; exact hne)]
  · rw [if_neg hany]
    apply find?_append_one
    exact decide_eq_false (fun h => hne (Eq.symm h))

theorem upsert_paths_mem (docs : List Doc) (rel : String)
    (len m s : Int) (sh : String) (tk : List String) (pa : String)
    (h : pa ∈ (upsertDoc docs rel len m s sh tk).map (fun d => d.path)) :
    pa ∈ docs.map (fun d => d.path) ∨ pa = rel := by
  unfold upsertDoc at h
  by_cases hany : docs.any (fun d => d.path = rel)
  · rw [if_pos hany] at h
    rw [List.map_map] at h
    obtain ⟨d, hd, hdp⟩ := List.mem_map.mp h
    by_cases hpa : d.path = rel
    · right
      rw [← hdp]
      simp [Function.comp, hpa]
    · left
      refine List.mem_map.mpr ⟨d, hd, ?_⟩
      rw [← hdp]
      simp [Function.comp, hpa]
  · rw [if_neg hany] at h
    rw [List.map_append] at h
    rcases List.mem_append.mp h with h1 | h2
    · exact Or.inl h1
    · right
      simpa using h2

theorem upsert_paths_nodup (docs : List Doc) (rel : String)
    (len m s : Int) (sh : String) (tk : List String)
    (h : (docs.map (fun d => d.path)).Nodup) :
    ((upsertDoc docs rel len m s sh tk).map (fun d => d.path)).Nodup := by
  unfold upsertDoc
  by_cases hany : docs.any (fun d => d.path = rel)
  · rw [if_pos hany, List.map_map]
    have : docs.map ((fun d => d.path) ∘
        (fun d => if d.path = rel then
          { d with len := len, mtime := m, size := s, sha1 := sh,
                   pathTokens := tk } else d)) =
        docs.map (fun d => d.path) := by
      apply List.map_congr_left
      intro a _
      by_cases hpa : a.path = rel
      · simp [Function.comp, hpa]
      · simp [Function.comp, hpa]
    rw [this]
    exact h
  · rw [if_neg hany, List.map_append]
    have hrel : rel ∉ docs.map (fun d => d.path) := by
      intro hc
      obtain ⟨d, hd, hdp⟩ := List.mem_map.mp hc
      exact hany (List.any_eq_true.mpr ⟨d, hd, by simp [hdp]⟩)
    simp only [List.map_cons, List.map_nil]
    rw [List.nodup_append]
    refine ⟨h, List.nodup_singleton _, ?_⟩
    intro a ha hb
    rw [List.mem_singleton] at hb
    exact hrel (hb ▸ ha)

theorem removeDocs_meta (S : Store) (tr : List String) :
    (removeDocs S tr).meta = S.meta := rfl

theorem deleteChangedPostings_meta (S : Store) (ti : List String) :
    (deleteChangedPostings S ti).meta = S.meta := rfl

theorem applyResults_meta (sw : List String) (opts : IndexOpts)
    (res : List DocData) : ∀ S : Store,
    (applyResults S sw opts res).meta = S.meta := by
  induction res with
  | nil => intro S; rfl
  | cons r rs ih =>
    intro S
    unfold applyResults
    rw [List.foldl_cons]
    exact ih _

theorem applyPlaceholders_meta (sw : List String) (opts : IndexOpts)
    (sig : String → Option (Int × Int)) (sha : String → String)
    (hv : List String) : ∀ (ti : List String) (S : Store),
    (applyPlaceholders S sw opts sig sha ti hv).meta = S.meta := by
  intro ti
  induction ti with
  | nil => intro S; rfl
  | cons r rs ih =>
    intro S
    unfold applyPlaceholders
    rw [List.foldl_cons]
    refine Eq.trans (ih _) ?_
    dsimp only
    by_cases hmem : r ∈ hv
    · rw [if_pos hmem]
    · rw [if_neg hmem]
      cases sig r with
      | none => rfl
      | some p =>
        obtain ⟨m, s⟩ := p
        rfl

theorem applyResults_cons (S : Store) (sw : List String) (opts : IndexOpts)
    (r : DocData) (rs : List DocData) :
    applyResults S sw opts (r :: rs) =
      applyResults (applyResults S sw opts [r]) sw opts rs := rfl

theorem applyResults_one_docs (S : Store) (sw : List String)
    (opts : IndexOpts) (r : DocData) :
    (applyResults S sw opts [r]).docs =
      upsertDoc S.docs r.rel ((r.tf.map (fun pr => pr.2)).foldl (· + ·) 0)
        r.mtime r.size r.sha1 (pathTokensOf opts sw r.rel) := rfl

theorem applyResults_lookup_other (sw : List String) (opts : IndexOpts)
    (res : List DocData) (rel : String)
    (h : rel ∉ res.map (fun r => r.rel)) : ∀ S : Store,
    lookupDoc (applyResults S sw opts res).docs rel = lookupDoc S.docs rel := by
  induction res with
  | nil => intro S; rfl
  | cons r rs ih =>
    intro S
    rw [List.map_cons] at h
    have hne : rel ≠ r.rel := fun hc => h (List.mem_cons.mpr (Or.inl hc))
    have hrest : rel ∉ rs.map (fun d => d.rel) :=
      fun hc => h (List.mem_cons.mpr (Or.inr hc))
    unfold applyResults
    rw [List.foldl_cons]
    refine Eq.trans (ih hrest _) ?_
    dsimp only
    exact lookupDoc_upsert_other _ _ _ _ _ _ _ _ hne

theorem applyResults_lookup_mem (sw : List String) (opts : IndexOpts)
    (res : List DocData) (d : DocData) (hd : d ∈ res)
    (hnd : (res.map (fun r => r.rel)).Nodup) : ∀ S : Store,
    ∃ ex, lookupDoc (applyResults S sw opts res).docs d.rel = some ex ∧
      ex.mtime = d.mtime ∧ ex.size = d.size := by
  induction res with
  | nil => cases hd
  | cons r rs ih =>
    intro S
    rw [List.map_cons, List.nodup_cons] at hnd
    rcases List.mem_cons.mp hd with rfl | hmem
    · rw [applyResults_cons]
      have hnot : d.rel ∉ rs.map (fun x => x.rel) := hnd.1
      rw [applyResults_lookup_other sw opts rs d.rel hnot _]
      rw [applyResults_one_docs]
      exact lookupDoc_upsert_self _ _ _ _ _ _ _
    · rw [applyResults_cons]
      exact ih hmem hnd.2 _

theorem applyResults_paths (sw : List String) (opts : IndexOpts)
    (res : List DocData) (rels : List String)
    (hres : ∀ r ∈ res, r.rel ∈ rels) : ∀ S : Store,
    (∀ d ∈ S.docs, d.path ∈ rels) →
    ∀ d ∈ (applyResults S sw opts res).docs, d.path ∈ rels := by
  induction res with
  | nil => intro S hS; exact hS
  | cons r rs ih =>
    intro S hS
    unfold applyResults
    rw [List.foldl_cons]
    refine ih (fun x hx => hres x (List.mem_cons_of_mem r hx)) _ ?_
    dsimp only
    intro d hdmem
    rcases upsert_paths_mem S.docs r.rel _ _ _ _ _ d.path
        (List.mem_map.mpr ⟨d, hdmem, rfl⟩) with h1 | h2
    · obtain ⟨d0, hd0, hdp⟩ := List.mem_map.mp h1
      rw [← hdp]
      exact hS d0 hd0
    · rw [h2]
      exact hres r (List.mem_cons_self r rs)

theorem applyResults_paths_nodup (sw : List String) (opts : IndexOpts)
    (res : List DocData) : ∀ S : Store,
    (S.docs.map (fun d => d.path)).Nodup →
    ((applyResults S sw opts res).docs.map (fun d => d.path)).Nodup := by
  induction res with
  | nil => intro S hS; exact hS
  | cons r rs ih =>
    intro S hS
    unfold applyResults
    rw [List.foldl_cons]
    refine ih _ ?_
    dsimp only
    exact upsert_paths_nodup _ _ _ _ _ _ _ hS

theorem removeDocs_docs (S : Store) (tr : List String) :
    (removeDocs S tr).docs = S.docs.filter (fun d => d.path ∉ tr) := rfl

theorem toRemoveOf_not_mem (docs : List Doc) (rels : List String)
    (rel : String) (hrel : rel ∈ rels) : rel ∉ toRemoveOf docs rels := by
  intro hc
  unfold toRemoveOf at hc
  have := List.of_mem_filter hc
  simp only [decide_not, Bool.not_eq_true', decide_eq_false_iff_not] at this
  exact this hrel

theorem lookupDoc_removeDocs (S : Store) (rels : List String) (rel : String)
    (hrel : rel ∈ rels) :
    lookupDoc (removeDocs S (toRemoveOf S.docs rels)).docs rel =
      lookupDoc S.docs rel := by
  rw [removeDocs_docs]
  unfold lookupDoc
  apply find?_filter_of_imp
  intro x _ hp
  have hxp : x.path = rel := of_decide_eq_true hp
  simp only [decide_not, Bool.not_eq_true', decide_eq_false_iff_not]
  rw [hxp]
  exact toRemoveOf_not_mem S.docs rels rel hrel

theorem removeDocs_paths (S : Store) (rels : List String) :
    ∀ d ∈ (removeDocs S (toRemoveOf S.docs rels)).docs, d.path ∈ rels := by
  intro d hd
  rw [removeDocs_docs] at hd
  have hs := List.of_mem_filter hd
  have hmem := List.mem_of_mem_filter hd
  simp only [decide_not, Bool.not_eq_true', decide_eq_false_iff_not] at hs
  by_contra hnot
  apply hs
  unfold toRemoveOf
  refine List.mem_filter.mpr ⟨List.mem_map.mpr ⟨d, hmem, rfl⟩, ?_⟩
  simp [hnot]

theorem removeDocs_paths_nodup (S : Store) (tr : List String)
    (h : (S.docs.map (fun d => d.path)).Nodup) :
    ((removeDocs S tr).docs.map (fun d => d.path)).Nodup := by
  rw [removeDocs_docs]
  exact h.sublist (List.Sublist.map _ (List.filter_sublist S.docs))

theorem taskDoneMatching_elim (sig : String → Option (Int × Int))
    (task : String → TaskOutcome) (rel : String)
    (h : taskDoneMatching sig task rel = true) :
    ∃ m s hh tf, sig rel = some (m, s) ∧
      task rel = TaskOutcome.done m s hh tf := by
  unfold taskDoneMatching at h
  cases hs : sig rel with
  | none =>
    rw [hs] at h
    cases ht : task rel <;> rw [ht] at h <;> simp at h
  | some p =>
    obtain ⟨m, s⟩ := p
    rw [hs] at h
    cases ht : task rel with
    | done m' s' hh tf =>
      rw [ht] at h
      have h' : (if m = m' ∧ s = s' then true else false) = true := h
      by_cases hc : m = m' ∧ s = s'
      · obtain ⟨rfl, rfl⟩ := hc
        exact ⟨m, s, hh, tf, rfl, rfl⟩
      · rw [if_neg hc] at h'
        cases h'
    | failed =>
      rw [ht] at h
      simp at h
    | empty =>
      rw [ht] at h
      simp at h

theorem resultsOf_nil (task : String → TaskOutcome) : resultsOf [] task = [] := rfl

theorem skippedEmptyOf_nil (task : String → TaskOutcome) :
    skippedEmptyOf [] task = 0 := rfl

theorem failedOf_nil (task : String → TaskOutcome) : failedOf [] task = 0 := rfl

theorem applyResults_nil (S : Store) (sw : List String) (opts : IndexOpts) :
    applyResults S sw opts [] = S := rfl

theorem resultsOf_map_rel (task : String → TaskOutcome) (l : List String)
    (h : ∀ rel ∈ l, ∃ m s hh tf, task rel = TaskOutcome.done m s hh tf) :
    (resultsOf l task).map (fun d => d.rel) = l := by
  induction l with
  | nil => rfl
  | cons r rs ih =>
    obtain ⟨m, s, hh, tf, ht⟩ := h r (List.mem_cons_self r rs)
    unfold resultsOf
    rw [List.filterMap_cons, ht]
    dsimp only
    rw [List.map_cons]
    have ih' := ih (fun x hx => h x (List.mem_cons_of_mem r hx))
    exact congrArg (List.cons r) ih'

theorem resultsOf_sound (task : String → TaskOutcome) (l : List String)
    (d : DocData) (hd : d ∈ resultsOf l task) :
    d.rel ∈ l ∧ task d.rel = TaskOutcome.done d.mtime d.size d.sha1 d.tf := by
  unfold resultsOf at hd
  obtain ⟨rel, hrel, hmap⟩ := List.mem_filterMap.mp hd
  cases ht : task rel with
  | done m s hh tf =>
    rw [ht] at hmap
    have hde := Option.some.inj hmap
    rw [← hde]
    exact ⟨hrel, ht⟩
  | failed =>
    rw [ht] at hmap
    simp at hmap
  | empty =>
    rw [ht] at hmap
    simp at hmap

theorem skippedEmptyOf_zero (task : String → TaskOutcome) (l : List String)
    (h : ∀ rel ∈ l, ∃ m s hh tf, task rel = TaskOutcome.done m s hh tf) :
    skippedEmptyOf l task = 0 := by
  unfold skippedEmptyOf
  rw [List.length_eq_zero, List.filter_eq_nil]
  intro a ha
  obtain ⟨m, s, hh, tf, ht⟩ := h a ha
  simp [ht]

theorem removeDocs_nil (S : Store) : removeDocs S [] = S := by
  unfold removeDocs
  simp

theorem deleteChangedPostings_nil (S : Store) :
    deleteChangedPostings S [] = S := by
  unfold deleteChangedPostings
  simp

theorem relUnchanged_not_changed (docs : List Doc)
    (sig : String → Option (Int × Int)) (rel : String)
    (hu : relUnchanged docs sig rel = true) :
    relChanged docs sig rel = false := by
  unfold relUnchanged at hu
  unfold relChanged
  cases hs : sig rel with
  | none => rfl
  | some p =>
    obtain ⟨m, s⟩ := p
    rw [hs] at hu
    cases hl : lookupDoc docs rel with
    | none =>
      rw [hl] at hu
      exact absurd hu (by simp)
    | some ex =>
      rw [hl] at hu
      have hu' : (if ex.mtime = m ∧ ex.size = s then true else false) = true := hu
      show (if ex.mtime = m ∧ ex.size = s then false else true) = false
      by_cases hc : ex.mtime = m ∧ ex.size = s
      · rw [if_pos hc]
      · rw [if_neg hc] at hu'
        cases hu' 

theorem indexRun_noop (S : Store) (root : String) (rels : List String)
    (sig : String → Option (Int × Int)) (sha : String → String)
    (task : String → TaskOutcome) (opts : IndexOpts)
    (hroot : S.meta.root = some root) (hver : S.meta.version = some "2")
    (htd : S.meta.totalDocs = some (docLenMeta S.docs).1)
    (hav : S.meta.avgdl = some (docLenMeta S.docs).2)
    (hpaths : ∀ d ∈ S.docs, d.path ∈ rels)
    (hun : ∀ rel ∈ rels, relUnchanged S.docs sig rel = true) :
    indexRun S root rels sig sha task opts true =
      (S, ⟨(docLenMeta S.docs).1, (docLenMeta S.docs).2, 0, rels.length, 0, 0⟩) := by
  obtain ⟨docs, posts, terms, meta⟩ := S
  obtain ⟨r0, v0, t0, a0⟩ := meta
  simp only at hroot hver htd hav hpaths hun
  subst hroot hver htd hav
  have htr : toRemoveOf docs rels = [] := by
    unfold toRemoveOf
    rw [List.filter_eq_nil]
    intro pa hpa
    obtain ⟨d, hd, rfl⟩ := List.mem_map.mp hpa
    simp only [decide_not, Bool.not_eq_true', decide_eq_false_iff_not, not_not]
    exact hpaths d hd
  have hch : rels.filter (relChanged docs sig) = [] := by
    rw [List.filter_eq_nil]
    intro rel hrel
    rw [relUnchanged_not_changed docs sig rel (hun rel hrel)]
    simp
  have hunf : rels.filter (relUnchanged docs sig) = rels :=
    List.filter_eq_self.mpr hun
  have hplan : planOf docs rels sig true = ([], rels.length) := by
    rw [planOf_closed, hch, hunf]
  unfold indexRun
  dsimp only
  rw [htr, hplan]
  dsimp only
  rw [removeDocs_nil, deleteChangedPostings_nil, resultsOf_nil,
    skippedEmptyOf_nil, failedOf_nil, applyResults_nil]
  rw [if_neg (show ¬ (0 : Nat) < 0 from by decide)]
  rw [if_neg (show ¬ (0 < ([] : List DocData).length ∨
    ([] : List String) ≠ [] ∨ (0 : Nat) < 0) from by simp)]
  rfl

theorem ite_store_terms_meta (c : Prop) [Decidable c] (X : Store)
    (T : List (String × Int)) :
    (if c then { X with terms := T } else X).meta = X.meta := by
  split <;> rfl

theorem ite_store_terms_docs (c : Prop) [Decidable c] (X : Store)
    (T : List (String × Int)) :
    (if c then { X with terms := T } else X).docs = X.docs := by
  split <;> rfl

theorem ite_meta_eq (c : Prop) [Decidable c] (X Y : Store)
    (hX : X.meta = Y.meta) : (if c then X else Y).meta = Y.meta := by
  split
  · exact hX
  · rfl

theorem indexRun_meta (S₀ : Store) (root : String) (rels : List String)
    (sig : String → Option (Int × Int)) (sha : String → String)
    (task : String → TaskOutcome) (opts : IndexOpts) (incr : Bool) :
    (indexRun S₀ root rels sig sha task opts incr).1.meta =
      ⟨some root, some "2",
       some (docLenMeta (indexRun S₀ root rels sig sha task opts incr).1.docs).1,
       some (docLenMeta (indexRun S₀ root rels sig sha task opts incr).1.docs).2⟩ := by
  unfold indexRun
  dsimp only
  rw [ite_store_terms_meta, applyResults_meta,
    ite_meta_eq _ _ _ (applyPlaceholders_meta _ _ _ _ _ _ _),
    deleteChangedPostings_meta, removeDocs_meta]

theorem applyResults_docs_congr (sw : List String) (opts : IndexOpts)
    (res : List DocData) : ∀ (S S' : Store), S.docs = S'.docs →
    (applyResults S sw opts res).docs = (applyResults S' sw opts res).docs := by
  induction res with
  | nil => intro S S' h; exact h
  | cons r rs ih =>
    intro S S' h
    rw [applyResults_cons, applyResults_cons S']
    apply ih
    rw [applyResults_one_docs, applyResults_one_docs, h]

theorem indexRun_docs (S₀ : Store) (root : String) (rels : List String)
    (sig : String → Option (Int × Int)) (sha : String → String)
    (task : String → TaskOutcome) (opts : IndexOpts)
    (hskip : skippedEmptyOf (planOf S₀.docs rels sig true).1 task = 0) :
    (indexRun S₀ root rels sig sha task opts true).1.docs =
      (applyResults
        { emptyStore with
          docs := S₀.docs.filter
            (fun d => d.path ∉ toRemoveOf S₀.docs rels) }
        (if opts.stopwords then DEFAULT_STOPWORDS else []) opts
        (resultsOf (planOf S₀.docs rels sig true).1 task)).docs := by
  unfold indexRun
  dsimp only
  rw [ite_store_terms_docs]
  rw [if_neg (show ¬ (0 < skippedEmptyOf (planOf S₀.docs rels sig true).1 task)
    from by rw [hskip]; decide)]
  exact applyResults_docs_congr _ _ _ _ _ rfl

theorem lookupDoc_mem (docs : List Doc) (rel : String) (ex : Doc)
    (h : lookupDoc docs rel = some ex) : ex ∈ docs ∧ ex.path = rel := by
  unfold lookupDoc at h
  have h1 := List.mem_of_find?_eq_some h
  have h2 := List.find?_some h
  exact ⟨h1, of_decide_eq_true h2⟩

theorem relUnchanged_lookup (docs : List Doc)
    (sig : String → Option (Int × Int)) (rel : String)
    (hu : relUnchanged docs sig rel = true) :
    ∃ ex, lookupDoc docs rel = some ex := by
  unfold relUnchanged at hu
  cases hs : sig rel with
  | none =>
    rw [hs] at hu
    exact absurd hu (by simp)
  | some p =>
    obtain ⟨m, s⟩ := p
    rw [hs] at hu
    cases hl : lookupDoc docs rel with
    | none =>
      rw [hl] at hu
      exact absurd hu (by simp)
    | some ex => exact ⟨ex, rfl⟩

theorem indexRun_post (S₀ : Store) (root : String) (rels : List String)
    (sig : String → Option (Int × Int)) (sha : String → String)
    (task : String → TaskOutcome) (opts : IndexOpts)
    (hrels : rels.Nodup)
    (hnd0 : (S₀.docs.map (fun d => d.path)).Nodup)
    (htask : ∀ rel ∈ rels, taskDoneMatching sig task rel = true) :
    (∀ d ∈ (indexRun S₀ root rels sig sha task opts true).1.docs,
      d.path ∈ rels) ∧
    (((indexRun S₀ root rels sig sha task opts true).1.docs.map
      (fun d => d.path)).Nodup) ∧
    (∀ rel ∈ rels,
      relUnchanged (indexRun S₀ root rels sig sha task opts true).1.docs
        sig rel = true) := by
  have hdone : ∀ rel ∈ rels, ∃ m s hh tf, sig rel = some (m, s) ∧
      task rel = TaskOutcome.done m s hh tf :=
    fun rel h => taskDoneMatching_elim sig task rel (htask rel h)
  have htoIdx : (planOf S₀.docs rels sig true).1 =
      rels.filter (relChanged S₀.docs sig) := by
    rw [planOf_closed]
  have hsubIdx : ∀ rel ∈ (planOf S₀.docs rels sig true).1, rel ∈ rels := by
    intro rel h
    rw [htoIdx] at h
    exact List.mem_of_mem_filter h
  have hdoneIdx : ∀ rel ∈ (planOf S₀.docs rels sig true).1,
      ∃ m s hh tf, task rel = TaskOutcome.done m s hh tf := by
    intro rel h
    obtain ⟨m, s, hh, tf, _, ht⟩ := hdone rel (hsubIdx rel h)
    exact ⟨m, s, hh, tf, ht⟩
  have hskip : skippedEmptyOf (planOf S₀.docs rels sig true).1 task = 0 :=
    skippedEmptyOf_zero task _ hdoneIdx
  have hdocs := indexRun_docs S₀ root rels sig sha task opts hskip
  have hresrel : (resultsOf (planOf S₀.docs rels sig true).1 task).map
      (fun d => d.rel) = (planOf S₀.docs rels sig true).1 :=
    resultsOf_map_rel task _ hdoneIdx
  have hresnd : ((resultsOf (planOf S₀.docs rels sig true).1 task).map
      (fun d => d.rel)).Nodup := by
    rw [hresrel, htoIdx]
    exact hrels.filter _
  have hbasepaths : ∀ d ∈ (Store.docs { emptyStore with
      docs := S₀.docs.filter (fun d => d.path ∉ toRemoveOf S₀.docs rels) }),
      d.path ∈ rels := fun d hd => removeDocs_paths S₀ rels d hd
  refine ⟨?_, ?_, ?_⟩
  · rw [hdocs]
    refine applyResults_paths _ _ _ _ ?_ _ hbasepaths
    intro r hr
    exact hsubIdx r.rel ((resultsOf_sound task _ r hr).1)
  · rw [hdocs]
    exact applyResults_paths_nodup _ _ _ _
      (removeDocs_paths_nodup S₀ (toRemoveOf S₀.docs rels) hnd0)
  · intro rel hrel
    obtain ⟨m, s, hh, tf, hsig, ht⟩ := hdone rel hrel
    unfold relUnchanged
    rw [hdocs, hsig]
    by_cases hch : relChanged S₀.docs sig rel = true
    · have hmemIdx : rel ∈ (planOf S₀.docs rels sig true).1 := by
        rw [htoIdx]
        exact List.mem_filter.mpr ⟨hrel, hch⟩
      have hrelmem : rel ∈ (resultsOf (planOf S₀.docs rels sig true).1
          task).map (fun d => d.rel) := by
        rw [hresrel]
        exact hmemIdx
      obtain ⟨d, hd, hdrel⟩ := List.mem_map.mp hrelmem
      obtain ⟨ex, hex, hexm, hexs⟩ := applyResults_lookup_mem _ opts _ d hd
        hresnd { emptyStore with
          docs := S₀.docs.filter (fun x => x.path ∉ toRemoveOf S₀.docs rels) }
      have hdtask := (resultsOf_sound task _ d hd).2
      rw [hdrel, ht] at hdtask
      have hinj := TaskOutcome.done.inj hdtask
      rw [hdrel] at hex
      rw [hex]
      show (if ex.mtime = m ∧ ex.size = s then true else false) = true
      rw [if_pos ⟨by rw [hexm, ← hinj.1], by rw [hexs, ← hinj.2.1]⟩]
    · have hnotIdx : rel ∉ (resultsOf (planOf S₀.docs rels sig true).1
          task).map (fun d => d.rel) := by
        rw [hresrel, htoIdx]
        intro hc
        exact hch (List.mem_filter.mp hc).2
      rw [applyResults_lookup_other _ opts _ rel hnotIdx _]
      have hpres : lookupDoc (Store.docs { emptyStore with
          docs := S₀.docs.filter (fun x => x.path ∉ toRemoveOf S₀.docs rels) })
          rel = lookupDoc S₀.docs rel :=
        lookupDoc_removeDocs S₀ rels rel hrel
      rw [hpres]
      have hchf : relChanged S₀.docs sig rel = false :=
        Bool.eq_false_iff.mpr hch
      unfold relChanged at hchf
      rw [hsig] at hchf
      cases hl : lookupDoc S₀.docs rel with
      | none =>
        rw [hl] at hchf
        exact absurd hchf (by simp)
      | some ex0 =>
        rw [hl] at hchf
        have hchf' : (if ex0.mtime = m ∧ ex0.size = s then false else true) =
            false := hchf
        by_cases hc : ex0.mtime = m ∧ ex0.size = s
        · show (if ex0.mtime = m ∧ ex0.size = s then true else false) = true
          rw [if_pos hc]
        · rw [if_neg hc] at hchf'
          cases hchf'

theorem nodup_subset_length {α : Type} [DecidableEq α] (l₁ l₂ : List α)
    (h₁ : l₁.Nodup) (h₂ : l₂.Nodup) (hs₁ : l₁ ⊆ l₂) (hs₂ : l₂ ⊆ l₁) :
    l₁.length = l₂.length :=
  Nat.le_antisymm (List.Subperm.length_le (List.subperm_of_subset h₁ hs₁))
    (List.Subperm.length_le (List.subperm_of_subset h₂ hs₂))

/-- C5: with every file readable and its worker returning a populated
result consistent with `file_sig` (the no-file-changed premise),
running `index` a second time over the same root, walked paths and
options returns `indexed = 0`, `unchanged = |docs|`, `removed = 0`,
`failed = 0` and leaves the store exactly equal (timestamps live outside
the store model). -/
theorem c5_idempotent_reindex (S₀ : Store) (root : String)
    (rels : List String) (sig : String → Option (Int × Int))
    (sha : String → String) (task : String → TaskOutcome) (opts : IndexOpts)
    (hrels : rels.Nodup)
    (hnd0 : (S₀.docs.map (fun d => d.path)).Nodup)
    (htask : ∀ rel ∈ rels, taskDoneMatching sig task rel = true) :
    indexRun (indexRun S₀ root rels sig sha task opts true).1 root rels sig
        sha task opts true =
      ((indexRun S₀ root rels sig sha task opts true).1,
       ⟨(docLenMeta (indexRun S₀ root rels sig sha task opts true).1.docs).1,
        (docLenMeta (indexRun S₀ root rels sig sha task opts true).1.docs).2,
        0,
        (indexRun S₀ root rels sig sha task opts true).1.docs.length,
        0, 0⟩) := by
  obtain ⟨hpaths, hnd, hun⟩ :=
    indexRun_post S₀ root rels sig sha task opts hrels hnd0 htask
  have hmeta := indexRun_meta S₀ root rels sig sha task opts true
  have hlen : (indexRun S₀ root rels sig sha task opts true).1.docs.length =
      rels.length := by
    rw [← List.length_map
      (indexRun S₀ root rels sig sha task opts true).1.docs (fun d => d.path)]
    apply nodup_subset_length _ _ hnd hrels
    · intro pa hpa
      obtain ⟨d, hd, rfl⟩ := List.mem_map.mp hpa
      exact hpaths d hd
    · intro rel hrel
      obtain ⟨ex, hex⟩ := relUnchanged_lookup _ sig rel (hun rel hrel)
      obtain ⟨hmem, hpath⟩ := lookupDoc_mem _ rel ex hex
      exact List.mem_map.mpr ⟨ex, hmem, hpath⟩
  rw [hlen]
  exact indexRun_noop _ root rels sig sha task opts
    (by rw [hmeta]) (by rw [hmeta]) (by rw [hmeta]) (by rw [hmeta])
    hpaths hun

/-- C5 witness: a one-file corpus indexed from the empty store and then
re-indexed with identical inputs; the second run is a no-op with
`indexed = 0`, `unchanged = 1 = |docs|`, `removed = 0`. -/
theorem c5_idempotent_reindex_witness :
    indexRun (indexRun emptyStore "/r" ["a.md"] (fun _ => some (1, 10))
        (fun _ => "h")
        (fun _ => TaskOutcome.done 1 10 "h" [("hello", 2), ("world", 1)])
        defaultOpts true).1 "/r" ["a.md"] (fun _ => some (1, 10))
        (fun _ => "h")
        (fun _ => TaskOutcome.done 1 10 "h" [("hello", 2), ("world", 1)])
        defaultOpts true =
      ((indexRun emptyStore "/r" ["a.md"] (fun _ => some (1, 10))
        (fun _ => "h")
        (fun _ => TaskOutcome.done 1 10 "h" [("hello", 2), ("world", 1)])
        defaultOpts true).1,
       ⟨(docLenMeta (indexRun emptyStore "/r" ["a.md"] (fun _ => some (1, 10))
          (fun _ => "h")
          (fun _ => TaskOutcome.done 1 10 "h" [("hello", 2), ("world", 1)])
          defaultOpts true).1.docs).1,
        (docLenMeta (indexRun emptyStore "/r" ["a.md"] (fun _ => some (1, 10))
          (fun _ => "h")
          (fun _ => TaskOutcome.done 1 10 "h" [("hello", 2), ("world", 1)])
          defaultOpts true).1.docs).2,
        0,
        (indexRun emptyStore "/r" ["a.md"] (fun _ => some (1, 10))
          (fun _ => "h")
          (fun _ => TaskOutcome.done 1 10 "h" [("hello", 2), ("world", 1)])
          defaultOpts true).1.docs.length,
        0, 0⟩) :=
  c5_idempotent_reindex emptyStore "/r" ["a.md"] (fun _ => some (1, 10))
    (fun _ => "h")
    (fun _ => TaskOutcome.done 1 10 "h" [("hello", 2), ("world", 1)])
    defaultOpts (by decide) (by decide) (by decide)
